import Mathlib

/-!
Verification of the Core Stability Engine (concertina).

Shallow embedding of the core pipeline from the TypeScript sources:
  - src/core/data-worker.ts      (parseBatch, columnar store, window packer,
                                  backpressure controller, DataWorkerCore)
  - src/core/encode-record-batch.ts (encodeRecordBatch)
  - src/core/atomic-store.ts     (AtomicStore)
  - src/core/use-stability-orchestrator.ts (handleScroll)

Modelling conventions:
  - Byte buffers are lists of naturals (`Bytes`); writers only produce values
    below 256, and readers compose bytes little-endian exactly as DataView does.
  - JS `ArrayBuffer.slice` clamps out-of-range bounds; that is `bufSlice`.
  - Typed-array cells are modelled by their bit patterns: an f64 cell is its
    64-bit pattern (Float64Array reads and writes are bit-faithful), an
    i32/u32 cell its 32-bit pattern, a bool cell one byte.  Writes into
    Uint32Array wrap modulo 2^32, which the embedding keeps.
  - Growable typed arrays are modelled by their live contents (capacity
    doubling copies the live prefix and never changes it); the zero-fill of
    fresh allocations shows up as `takePad` where the source copies a
    clamped `subarray` but advances the length by the full declared amount.
  - JS numbers feeding the encoder are modelled by `JValue`: f64 inputs by
    bit pattern, i32/u32 inputs by rational value (floats are rationals;
    `Math.trunc` is truncation toward zero), strings by their UTF-8 bytes.
    `Number(...)` coercion of strings and `String(...)` formatting of numbers
    are outside the model; round-trip theorems restrict inputs accordingly.
  - Object identity of consumer-store snapshots is modelled by a version
    counter: every JS object literal allocates, so `merge` bumps the version.
-/

deriving instance DecidableEq for Except

namespace Concertina

/-! ## Wire-format primitives -/

abbrev Bytes := List Nat

/-- Little-endian value of a byte list, as DataView composes bytes. -/
def leValue : Bytes → Nat
  | [] => 0
  | b :: rest => b + 256 * leValue rest

/-- `sz` little-endian bytes of `v` (the low `8*sz` bits), as typed-array
stores write them. -/
def leN : Nat → Nat → Bytes
  | 0, _ => []
  | sz + 1, v => (v % 256) :: leN sz (v / 256)

/-- `DataView.getUint32(i, true)`: little-endian u32 read, `RangeError`
(modelled as `none`) when the read extends past the buffer. -/
def readU32 (l : Bytes) (i : Nat) : Option Nat :=
  if i + 4 ≤ l.length then some (leValue ((l.drop i).take 4)) else none

/-- `ArrayBuffer.slice(a, b)`: both bounds clamp to the buffer, never fails. -/
def bufSlice (l : Bytes) (a b : Nat) : Bytes :=
  (l.drop a).take (b - a)

/-- Serialize a u32 array: each entry wraps modulo 2^32 as a Uint32Array
store does. -/
def u32sToBytes (l : List Nat) : Bytes :=
  (l.map (leN 4)).flatten

/-- Structural worker for `readCells`; the fuel is an upper bound on the
buffer length, so the recursion is kernel-reducible. -/
def readCellsAux (sz : Nat) : Nat → Bytes → List Nat
  | 0, _ => []
  | _, [] => []
  | fuel + 1, b => leValue (b.take sz) :: readCellsAux sz fuel (b.drop sz)

/-- Split a buffer into `sz`-byte little-endian cells (the typed-array view
taken by the parser over a data block whose length is a multiple of `sz`). -/
def readCells (sz : Nat) (b : Bytes) : List Nat :=
  if sz = 0 then [] else readCellsAux sz b.length b

/-! ## Column types and tags (src/core/types.ts) -/

inductive ColumnDataType
  | f64 | i32 | u32 | bool | timestamp_ms | utf8 | list_utf8
deriving DecidableEq, Repr

def BATCH_MAGIC : Nat := 0xac1dc0de

def CELL_H_PADDING : ℚ := 16

def TYPE_TAG : ColumnDataType → Nat
  | .f64 => 0 | .i32 => 1 | .u32 => 2 | .bool => 3
  | .timestamp_ms => 4 | .utf8 => 5 | .list_utf8 => 6

def TAG_TO_TYPE (tag : Nat) : Option ColumnDataType :=
  match tag with
  | 0 => some .f64 | 1 => some .i32 | 2 => some .u32 | 3 => some .bool
  | 4 => some .timestamp_ms | 5 => some .utf8 | 6 => some .list_utf8
  | _ => none

/-- Element size in bytes of the typed view a numeric column uses. -/
def elemSizeOf : ColumnDataType → Nat
  | .f64 => 8 | .timestamp_ms => 8 | .i32 => 4 | .u32 => 4 | .bool => 1
  | .utf8 => 0 | .list_utf8 => 0

/-! ## Batch parser (parseBatch, src/core/data-worker.ts:321-375) -/

inductive ParseErr
  | invalidMagic (got : Nat)
  | unknownTypeTag (tag : Nat)
  /-- A `RangeError` thrown by `DataView.getUint32` past the end of the
  buffer or by a typed-array constructor over a byte length that is not a
  multiple of the element size. -/
  | rangeError
deriving DecidableEq, Repr

/-- Payload of one parsed column (the typed views in `ParsedColData`).
Numeric cells are bit patterns of the element type. -/
inductive ColPayload
  | num (elemSize : Nat) (cells : List Nat)
  | utf8 (offsets : List Nat) (bytes : Bytes)
  | listU (totalItems : Nat) (rowOffsets : List Nat) (itemOffsets : List Nat)
      (bytes : Bytes)
deriving DecidableEq, Repr

structure ParsedColData where
  type : ColumnDataType
  payload : ColPayload
deriving DecidableEq, Repr

structure ParsedBatch where
  seq : Nat
  rowCount : Nat
  columns : List ParsedColData
deriving DecidableEq, Repr

/-- The descriptor loop: reads `(typeTag, byteLen)` pairs, failing on the
first out-of-range read or unknown tag, in source order (both u32 reads
happen before the tag check). -/
def parseDescriptors (b : Bytes) (cursor : Nat) :
    Nat → Except ParseErr (List (ColumnDataType × Nat))
  | 0 => .ok []
  | n + 1 =>
    match readU32 b cursor with
    | none => .error .rangeError
    | some tag =>
      match readU32 b (cursor + 4) with
      | none => .error .rangeError
      | some byteLen =>
        match TAG_TO_TYPE tag with
        | none => .error (.unknownTypeTag tag)
        | some ty =>
          match parseDescriptors b (cursor + 8) n with
          | .error e => .error e
          | .ok rest => .ok ((ty, byteLen) :: rest)

/-- Parse one column's data block out of its (already clamped) slice. -/
def parseCol (ty : ColumnDataType) (rowCount : Nat) (slice : Bytes) :
    Except ParseErr ColPayload :=
  match ty with
  | .utf8 =>
    let offsetByteLen := (rowCount + 1) * 4
    let offBytes := slice.take offsetByteLen
    if offBytes.length % 4 ≠ 0 then .error .rangeError
    else .ok (.utf8 (readCells 4 offBytes) (slice.drop offsetByteLen))
  | .list_utf8 =>
    if slice.length < 4 then .error .rangeError
    else
      let totalItems := leValue (slice.take 4)
      let rowBytes := bufSlice slice 4 (4 + (rowCount + 1) * 4)
      let off2 := 4 + (rowCount + 1) * 4
      let itemBytes := bufSlice slice off2 (off2 + (totalItems + 1) * 4)
      if rowBytes.length % 4 ≠ 0 then .error .rangeError
      else if itemBytes.length % 4 ≠ 0 then .error .rangeError
      else .ok (.listU totalItems (readCells 4 rowBytes) (readCells 4 itemBytes)
        (slice.drop (off2 + (totalItems + 1) * 4)))
  | ty =>
    let sz := elemSizeOf ty
    if slice.length % sz ≠ 0 then .error .rangeError
    else .ok (.num sz (readCells sz slice))

/-- The data-block loop: slices `byteLen` bytes per descriptor (clamped, as
`ArrayBuffer.slice` clamps) and advances the cursor by the full declared
`byteLen` regardless. -/
def parseCols (buffer : Bytes) (rowCount : Nat) :
    Nat → List (ColumnDataType × Nat) → Except ParseErr (List ParsedColData)
  | _, [] => .ok []
  | cursor, (ty, byteLen) :: rest =>
    let slice := bufSlice buffer cursor (cursor + byteLen)
    match parseCol ty rowCount slice with
    | .error e => .error e
    | .ok payload =>
      match parseCols buffer rowCount (cursor + byteLen) rest with
      | .error e => .error e
      | .ok tail => .ok (⟨ty, payload⟩ :: tail)

def parseBatch (buffer : Bytes) : Except ParseErr ParsedBatch :=
  match readU32 buffer 0 with
  | none => .error .rangeError
  | some magic =>
    if magic ≠ BATCH_MAGIC then .error (.invalidMagic magic)
    else
      match readU32 buffer 4, readU32 buffer 8, readU32 buffer 12 with
      | some seq, some rowCount, some colCount =>
        match parseDescriptors buffer 16 colCount with
        | .error e => .error e
        | .ok descs =>
          match parseCols buffer rowCount (16 + 8 * colCount) descs with
          | .error e => .error e
          | .ok cols => .ok ⟨seq, rowCount, cols⟩
      | _, _, _ => .error .rangeError

/-! ## Record-batch encoder (encodeRecordBatch, src/core/encode-record-batch.ts)

Input row values are modelled by `JValue`.  An f64-column number is carried
by its 64-bit pattern (bit-faithful through Float64Array); an integer-column
number by its rational value (every JS float is a rational, and `Math.trunc`
truncates toward zero); a string by its UTF-8 bytes.  `Number(...)` applied
to strings/objects and `String(...)` applied to numbers are not modelled;
theorems about the encoder restrict inputs with `Typable`. -/

inductive JValue
  | undef
  | jnull
  | jbool (b : Bool)
  /-- An f64 by bit pattern (for f64 / timestamp_ms columns). -/
  | numPat (p : Nat)
  /-- A number by rational value (for i32 / u32 columns). -/
  | numQ (q : ℚ)
  /-- A string by its UTF-8 bytes. -/
  | str (s : Bytes)
  | strList (l : List Bytes)
deriving DecidableEq, Repr

/-- A row record: JS property lookup yields `undefined` for missing names. -/
abbrev RowRecord := String → JValue

structure ColumnSchema where
  name : String
  type : ColumnDataType
  maxContentChars : ℚ
  fixedWidth : Option ℚ := none
deriving DecidableEq, Repr

/-- `Math.trunc`: truncation toward zero. -/
def jsTrunc (q : ℚ) : ℤ :=
  if 0 ≤ q then ⌊q⌋ else -⌊-q⌋

/-- Rational value of `vals[i] ?? 0` under `Number(...)` on the modelled
inputs (null/undefined replaced by 0 first; booleans coerce to 0/1). -/
def numOf : JValue → ℚ
  | .numQ q => q
  | .jbool b => if b then 1 else 0
  | _ => 0

/-- `Number(vals[i] ?? 0)` as an f64 bit pattern (f64/timestamp columns):
null/undefined give +0.0, whose pattern is all-zero bits. -/
def coerceF64 : JValue → Nat
  | .numPat p => p
  | _ => 0

/-- `Math.trunc(Number(vals[i] ?? 0))` stored into an Int32Array or via
`>>> 0` into a Uint32Array: both leave the same 32-bit pattern. -/
def coerce32 (v : JValue) : Nat :=
  ((jsTrunc (numOf v)) % (2 ^ 32 : ℤ)).toNat

/-- JS truthiness on the modelled values (`vals[i] ? 1 : 0`).  A numeric
bit pattern is falsy exactly on +0.0 and -0.0 (NaN patterns not modelled). -/
def truthy : JValue → Bool
  | .undef => false
  | .jnull => false
  | .jbool b => b
  | .numQ q => q ≠ 0
  | .numPat p => ¬(p = 0 ∨ p = 2 ^ 63)
  | .str s => s ≠ []
  | .strList _ => true

/-- `val == null ? "" : String(val)` for utf8 columns (string formatting of
non-strings not modelled). -/
def coerceUtf8 : JValue → Bytes
  | .str s => s
  | _ => []

/-- `Array.isArray(v) ? v.map(String) : []` for list_utf8 columns. -/
def coerceList : JValue → List Bytes
  | .strList l => l
  | _ => []

/-- Cumulative-length offset table over a list of byte strings:
`[0, |s0|, |s0|+|s1|, ...]`, of length `n+1`. -/
def cumLengths (ls : List Bytes) : List Nat :=
  ls.scanl (fun acc s => acc + s.length) 0

/-- Cumulative item counts over per-row item lists. -/
def cumCounts (rows : List (List Bytes)) : List Nat :=
  rows.scanl (fun acc r => acc + r.length) 0

/-- Serialize numeric cells (bit patterns) into the column's data block. -/
def cellsToBytes (sz : Nat) (cells : List Nat) : Bytes :=
  (cells.map (leN sz)).flatten

/-- First pass of `encodeRecordBatch`: the data-block buffers of one column
(in the order the source pushes them into `colBufs`). -/
def encCol (ty : ColumnDataType) (vals : List JValue) : List Bytes :=
  match ty with
  | .f64 => [cellsToBytes 8 (vals.map coerceF64)]
  | .timestamp_ms => [cellsToBytes 8 (vals.map coerceF64)]
  | .i32 => [cellsToBytes 4 (vals.map coerce32)]
  | .u32 => [cellsToBytes 4 (vals.map coerce32)]
  | .bool => [cellsToBytes 1 (vals.map (fun v => if truthy v then 1 else 0))]
  | .utf8 =>
    let encoded := vals.map coerceUtf8
    [u32sToBytes (cumLengths encoded), encoded.flatten]
  | .list_utf8 =>
    let rowArrays := vals.map coerceList
    let items := rowArrays.flatten
    [leN 4 items.length,
     u32sToBytes (cumCounts rowArrays),
     u32sToBytes (cumLengths items),
     items.flatten]

/-- Second pass, shared verbatim between `encodeRecordBatch` and
`packWindowBuffer`: 16-byte header, 8-byte descriptors (tag + byteLen),
then the concatenated data blocks. -/
def packBuffers (seq rowCount : Nat)
    (cols : List (ColumnDataType × List Bytes)) : Bytes :=
  leN 4 BATCH_MAGIC ++ leN 4 seq ++ leN 4 rowCount ++ leN 4 cols.length
    ++ (cols.map (fun c =>
          leN 4 (TYPE_TAG c.1) ++ leN 4 ((c.2.map List.length).sum))).flatten
    ++ (cols.map (fun c => c.2.flatten)).flatten

def encodeRecordBatch (schema : List ColumnSchema) (rows : List RowRecord)
    (seq : Nat) : Bytes :=
  packBuffers seq rows.length
    (schema.map fun col => (col.type, encCol col.type (rows.map fun r => r col.name)))

/-! ## Growable columnar storage (src/core/data-worker.ts:75-295)

Growable typed arrays are modelled by their live contents; capacity doubling
copies the live prefix, never altering it.  Where the source copies a
clamped `subarray(0, n)` but advances its length counter by the full `n`,
the unwritten gap is zero-filled (fresh allocations are zeroed and growth
copies only the live prefix), which `takePad` captures. -/

/-- `src.subarray(0, n)` copied into a zero-filled region whose length
advances by the full `n`. -/
def takePad (l : Bytes) (n : Nat) : Bytes :=
  l.take n ++ List.replicate (n - l.length) 0

/-- A value computed by JS number arithmetic and stored into a Uint32Array:
wraps modulo 2^32 (negative differences wrap around). -/
def u32wrap (z : ℤ) : Nat :=
  (z % (2 ^ 32 : ℤ)).toNat

structure NumericColumn where
  colType : ColumnDataType
  /-- Cells as bit patterns of the element type. -/
  cells : List Nat
deriving DecidableEq, Repr

def NumericColumn.elemSize (c : NumericColumn) : Nat := elemSizeOf c.colType

def NumericColumn.append (c : NumericColumn) (src : List Nat) : NumericColumn :=
  { c with cells := c.cells ++ src }

def NumericColumn.rowCount (c : NumericColumn) : Nat := c.cells.length

/-- Rows `[startRow, startRow+count)` as a fresh `ArrayBuffer`. -/
def NumericColumn.copySlice (c : NumericColumn) (startRow count : Nat) : Bytes :=
  let stop := min (startRow + count) c.cells.length
  let actual := stop - startRow
  cellsToBytes c.elemSize ((c.cells.drop startRow).take actual)

structure Utf8Column where
  /-- Live offset entries (`offsetLen` many); `offsets[0] = 0` at creation. -/
  offsets : List Nat
  bytes : Bytes
deriving DecidableEq, Repr

def Utf8Column.rowCount (c : Utf8Column) : Nat := c.offsets.length - 1

def Utf8Column.append (c : Utf8Column) (srcOffsets : List Nat) (srcBytes : Bytes)
    (rowCount : Nat) : Utf8Column :=
  let addedBytes := srcOffsets.getD rowCount 0
  let baseAbsolute := c.offsets.getD (c.offsets.length - 1) 0
  { offsets := c.offsets ++ (List.range rowCount).map
      (fun i => (baseAbsolute + srcOffsets.getD (i + 1) 0) % 2 ^ 32),
    bytes := c.bytes ++ takePad srcBytes addedBytes }

structure Utf8Slice where
  offsets : List Nat
  bytes : Bytes
deriving DecidableEq, Repr

def Utf8Column.copySlice (c : Utf8Column) (startRow count : Nat) : Utf8Slice :=
  let stop := min (startRow + count) c.rowCount
  let actual := stop - startRow
  let base := c.offsets.getD startRow 0
  let limit := c.offsets.getD (startRow + actual) 0
  { offsets := (List.range (actual + 1)).map
      (fun i => u32wrap ((c.offsets.getD (startRow + i) 0 : ℤ) - base)),
    bytes := (c.bytes.drop base).take (limit - base) }

structure ListUtf8Column where
  /-- Live row-offset entries (absolute item indices); `rowOffsets[0] = 0`. -/
  rowOffsets : List Nat
  /-- Live item-offset entries (absolute byte offsets); `itemOffsets[0] = 0`. -/
  itemOffsets : List Nat
  bytes : Bytes
deriving DecidableEq, Repr

def ListUtf8Column.rowCount (c : ListUtf8Column) : Nat := c.rowOffsets.length - 1

def ListUtf8Column.append (c : ListUtf8Column) (totalItems : Nat)
    (srcRowOff srcItemOff : List Nat) (srcBytes : Bytes) (rowCount : Nat) :
    ListUtf8Column :=
  let baseItemIdx := c.itemOffsets.length - 1
  let baseBytesLen := c.bytes.length
  let addedBytes := if totalItems > 0 then srcItemOff.getD totalItems 0 else 0
  { bytes := c.bytes ++ takePad srcBytes addedBytes,
    itemOffsets := c.itemOffsets ++ (List.range totalItems).map
      (fun j => (baseBytesLen + srcItemOff.getD (j + 1) 0) % 2 ^ 32),
    rowOffsets := c.rowOffsets ++ (List.range rowCount).map
      (fun r => (baseItemIdx + srcRowOff.getD (r + 1) 0) % 2 ^ 32) }

structure ListUtf8Slice where
  sliceItems : Nat
  rowOffsets : List Nat
  itemOffsets : List Nat
  bytes : Bytes
deriving DecidableEq, Repr

def ListUtf8Column.copySlice (c : ListUtf8Column) (startRow count : Nat) :
    ListUtf8Slice :=
  let stop := min (startRow + count) c.rowCount
  let actual := stop - startRow
  let baseItemIdx := c.rowOffsets.getD startRow 0
  let endItemIdx := c.rowOffsets.getD (startRow + actual) 0
  let sliceItems := endItemIdx - baseItemIdx
  let baseByteIdx := if sliceItems > 0 then c.itemOffsets.getD baseItemIdx 0 else 0
  let endByteIdx := if sliceItems > 0 then c.itemOffsets.getD endItemIdx 0 else 0
  { sliceItems := sliceItems,
    rowOffsets := (List.range (actual + 1)).map
      (fun r => u32wrap ((c.rowOffsets.getD (startRow + r) 0 : ℤ) - baseItemIdx)),
    itemOffsets := (List.range (sliceItems + 1)).map
      (fun j => u32wrap ((c.itemOffsets.getD (baseItemIdx + j) 0 : ℤ) - baseByteIdx)),
    bytes := (c.bytes.drop baseByteIdx).take (endByteIdx - baseByteIdx) }

inductive AnyColumn
  | numeric (c : NumericColumn)
  | utf8Col (c : Utf8Column)
  | listCol (c : ListUtf8Column)
deriving DecidableEq, Repr

def AnyColumn.rowCount : AnyColumn → Nat
  | .numeric c => c.rowCount
  | .utf8Col c => c.rowCount
  | .listCol c => c.rowCount

/-! ## Window buffer packer (packWindowBuffer, src/core/data-worker.ts:381-436) -/

/-- The per-column slice buffers, dispatched on the column's runtime class
as the source does with `instanceof`. -/
def sliceBufs (col : AnyColumn) (startRow count : Nat) : List Bytes :=
  match col with
  | .listCol c =>
    let s := c.copySlice startRow count
    [leN 4 s.sliceItems, u32sToBytes s.rowOffsets, u32sToBytes s.itemOffsets, s.bytes]
  | .utf8Col c =>
    let s := c.copySlice startRow count
    [u32sToBytes s.offsets, s.bytes]
  | .numeric c => [c.copySlice startRow count]

def packWindowBuffer (columns : List AnyColumn) (schemaTypes : List ColumnDataType)
    (startRow rowCount seq : Nat) : Bytes :=
  packBuffers seq rowCount
    ((columns.zip schemaTypes).map fun p => (p.2, sliceBufs p.1 startRow rowCount))

/-! ## Layout engine (resolveLayout, src/core/data-worker.ts:440-462) -/

structure ResolvedColumn where
  name : String
  type : ColumnDataType
  maxContentChars : ℚ
  fixedWidth : Option ℚ
  computedWidth : ℚ
  columnIndex : Nat
deriving DecidableEq, Repr

structure ViewportLayout where
  columns : List ResolvedColumn
  rowHeight : ℚ
  totalRows : Nat
  totalHeight : ℚ
  /-- `Math.ceil(viewportHeight / rowHeightHint) + 1`; non-negative in every
  reachable state, modelled as the clamped natural. -/
  viewportRows : Nat
deriving DecidableEq, Repr

def toColumnSchema (c : ResolvedColumn) : ColumnSchema :=
  { name := c.name, type := c.type, maxContentChars := c.maxContentChars,
    fixedWidth := c.fixedWidth }

def resolveLayout (schema : List ColumnSchema) (charWidthHint rowHeightHint : ℚ)
    (totalRows : Nat) (viewportHeight : ℚ) : ViewportLayout :=
  { columns := schema.enum.map fun p =>
      { name := p.2.name, type := p.2.type,
        maxContentChars := p.2.maxContentChars, fixedWidth := p.2.fixedWidth,
        computedWidth := p.2.fixedWidth.getD
          (p.2.maxContentChars * charWidthHint + CELL_H_PADDING * 2),
        columnIndex := p.1 },
    rowHeight := rowHeightHint,
    totalRows := totalRows,
    totalHeight := totalRows * rowHeightHint,
    viewportRows := (⌈viewportHeight / rowHeightHint⌉ + 1).toNat }

/-! ## Backpressure controller (src/core/data-worker.ts:44-69, 466-496) -/

inductive BackpressureStrategy | NOMINAL | BUFFER | SHED
deriving DecidableEq, Repr

/-- Ring buffer of the most recent samples, modelled by its live contents,
newest first (the mean sums the live slots, so slot order is immaterial). -/
structure RingBuffer where
  capacity : Nat
  data : List ℚ
deriving DecidableEq, Repr

def RingBuffer.push (r : RingBuffer) (v : ℚ) : RingBuffer :=
  { r with data := (v :: r.data).take r.capacity }

def RingBuffer.mean (r : RingBuffer) : ℚ :=
  if r.data.length = 0 then 0 else r.data.sum / r.data.length

structure BackpressureController where
  history : RingBuffer
  strategy : BackpressureStrategy
deriving DecidableEq, Repr

def initialController : BackpressureController :=
  { history := { capacity := 8, data := [] }, strategy := .NOMINAL }

def BackpressureController.record (c : BackpressureController) (renderMs : ℚ) :
    BackpressureController × Option BackpressureStrategy :=
  let history := c.history.push renderMs
  if history.data.length < 4 then ({ c with history := history }, none)
  else
    let avg := history.mean
    let next : BackpressureStrategy :=
      if avg > 28 then .SHED else if avg > 14 then .BUFFER else .NOMINAL
    if next = c.strategy then ({ c with history := history }, none)
    else ({ history := history, strategy := next }, some next)

def BackpressureController.avgMs (c : BackpressureController) : ℚ :=
  c.history.mean

structure BackpressureState where
  strategy : BackpressureStrategy
  queueDepth : Nat
  avgRenderMs : ℚ
deriving DecidableEq, Repr

/-! ## Worker events and data windows (src/core/types.ts) -/

structure DataWindow where
  seq : Nat
  startRow : Nat
  rowCount : Nat
  layout : ViewportLayout
  buffer : Bytes
deriving DecidableEq, Repr

inductive WorkerEvent
  | layoutReady (layout : ViewportLayout)
  | windowUpdate (window : DataWindow)
  | backpressure (state : BackpressureState)
  | totalRowsUpdated (totalRows : Nat)
  | ingestError (seq : Nat) (message : String)
  | ingestAck (seq : Nat)
deriving DecidableEq, Repr

def WorkerEvent.isIngestError : WorkerEvent → Bool
  | .ingestError _ _ => true
  | _ => false

/-! ## DataWorkerCore (src/core/data-worker.ts:505-702)

Command handlers are pure transition functions returning the next state and
the list of events posted, in emission order.  `scheduleProcess` schedules
`processQueue` on a later macrotask; the model exposes `processQueue` as its
own step and `ingest` only enqueues (emitting nothing), exactly as the
source's synchronous `ingest` handler does. -/

structure QueueItem where
  buffer : Bytes
  seq : Nat
deriving DecidableEq, Repr

structure WorkerState where
  schema : List ResolvedColumn
  columns : List AnyColumn
  charWidthHint : ℚ
  rowHeightHint : ℚ
  viewportHeight : ℚ
  totalRows : Nat
  windowStart : Nat
  windowCount : Nat
  layout : Option ViewportLayout
  seqCounter : Nat
  bp : BackpressureController
  queue : List QueueItem
  processing : Bool
deriving DecidableEq, Repr

def MAX_QUEUE_DEPTH : Nat := 64

def dummyParsedCol : ParsedColData := ⟨.f64, .num 8 []⟩

def dummyResolvedCol : ResolvedColumn := ⟨"", .f64, 0, none, 0, 0⟩

def dummyAnyCol : AnyColumn := .numeric ⟨.f64, []⟩

def initialWorkerState : WorkerState :=
  { schema := [], columns := [], charWidthHint := 8, rowHeightHint := 32,
    viewportHeight := 600, totalRows := 0, windowStart := 0, windowCount := 0,
    layout := none, seqCounter := 0, bp := initialController, queue := [],
    processing := false }

namespace DataWorkerCore

def parseErrMessage : ParseErr → String
  | .invalidMagic got => "Error: Invalid batch magic: " ++ toString got
  | .unknownTypeTag t => "Error: Unknown type tag: " ++ toString t
  | .rangeError => "RangeError"

/-- The pre-commit loop: first `i < min(batchCols, storeCols)` whose wire
type differs from the registered schema type. -/
def firstMismatch (batchCols : List ParsedColData) (s : WorkerState) : Option Nat :=
  (List.range (min batchCols.length s.columns.length)).find? (fun i =>
    (batchCols.getD i dummyParsedCol).type ≠
      (s.schema.getD i dummyResolvedCol).type)

def mismatchMessage (s : WorkerState) (i : Nat) : String :=
  "Schema type mismatch at column " ++ toString i ++ " (" ++
    (s.schema.getD i dummyResolvedCol).name ++ ")"

def integrityMessage (s : WorkerState) (i : Nat) : String :=
  "Integrity violation after batch commit: column " ++
    (s.schema.getD i dummyResolvedCol).name

/-- One iteration of the append loop, dispatched as the source does:
list append when the wire type is list_utf8 and the store column is a
`ListUtf8Column`, utf8 likewise, numeric when the store column is numeric
and the parsed column carries typed data; otherwise no mutation. -/
def appendParsed (store : AnyColumn) (col : ParsedColData) (rc : Nat) : AnyColumn :=
  match col.type, store, col.payload with
  | .list_utf8, .listCol c, .listU ti ro io bys =>
    .listCol (c.append ti ro io bys rc)
  | .utf8, .utf8Col c, .utf8 offs bys =>
    .utf8Col (c.append offs bys rc)
  | _, .numeric c, .num _ cells => .numeric (c.append cells)
  | _, st, _ => st

/-- The append loop runs for `i < min(batchCols, storeCols)`; store columns
past the batch's column count are left untouched. -/
def appendAll (stores : List AnyColumn) (cols : List ParsedColData) (rc : Nat) :
    List AnyColumn :=
  match stores, cols with
  | [], _ => []
  | s :: ss, [] => s :: ss
  | s :: ss, c :: cs => appendParsed s c rc :: appendAll ss cs rc

def rebuildLayout (s : WorkerState) : WorkerState :=
  let lay := resolveLayout (s.schema.map toColumnSchema) s.charWidthHint
    s.rowHeightHint s.totalRows s.viewportHeight
  { s with layout := some lay, schema := lay.columns }

def ingestBatch (s : WorkerState) (item : QueueItem) :
    WorkerState × List WorkerEvent :=
  match parseBatch item.buffer with
  | .error e =>
    (s, [.ingestError item.seq (parseErrMessage e), .ingestAck item.seq])
  | .ok batch =>
    match firstMismatch batch.columns s with
    | some i =>
      (s, [.ingestError item.seq (mismatchMessage s i), .ingestAck item.seq])
    | none =>
      let columns' := appendAll s.columns batch.columns batch.rowCount
      let totalRows' := s.totalRows + batch.rowCount
      let s1 := { s with columns := columns', totalRows := totalRows' }
      match columns'.findIdx? (fun c => c.rowCount ≠ totalRows') with
      | some i =>
        (s1, [.ingestError item.seq (integrityMessage s1 i), .ingestAck item.seq])
      | none =>
        (rebuildLayout s1, [.totalRowsUpdated totalRows', .ingestAck item.seq])

def flushWindow (s : WorkerState) : WorkerState × List WorkerEvent :=
  match s.layout with
  | none => (s, [])
  | some lay =>
    if s.totalRows = 0 ∨ s.windowCount = 0 then (s, [])
    else
      let start := min s.windowStart (s.totalRows - 1)
      let count := min s.windowCount (s.totalRows - start)
      if count = 0 then (s, [])
      else
        let seq := s.seqCounter
        let buffer := packWindowBuffer s.columns (s.schema.map (·.type)) start count seq
        ({ s with seqCounter := seq + 1 },
          [.windowUpdate ⟨seq, start, count, lay, buffer⟩])

/-- The `INGEST` handler (src/core/data-worker.ts:551-557): evicts the
oldest queued command when already at `MAX_QUEUE_DEPTH` under SHED, then
enqueues and schedules processing.  It posts no events. -/
def ingest (s : WorkerState) (buffer : Bytes) (seq : Nat) :
    WorkerState × List WorkerEvent :=
  let q0 := if s.bp.strategy = .SHED ∧ MAX_QUEUE_DEPTH ≤ s.queue.length
    then s.queue.drop 1 else s.queue
  ({ s with queue := q0 ++ [⟨buffer, seq⟩], processing := true }, [])

/-- The drain loop of `processQueue`: `while (queue.length > 0)
ingestBatch(queue.shift())`.  `ingestBatch` never reads or writes the
queue, so draining the captured items in order is the loop's behaviour. -/
def drainItems (s : WorkerState) (items : List QueueItem) :
    WorkerState × List WorkerEvent :=
  match items with
  | [] => (s, [])
  | it :: rest =>
    let r1 := ingestBatch s it
    let r2 := drainItems r1.1 rest
    (r2.1, r1.2 ++ r2.2)

def processQueue (s : WorkerState) : WorkerState × List WorkerEvent :=
  let r := drainItems { s with queue := [], processing := false } s.queue
  let f := flushWindow r.1
  (f.1, r.2 ++ f.2)

def setWindow (s : WorkerState) (startRow rowCount : Nat) :
    WorkerState × List WorkerEvent :=
  flushWindow { s with windowStart := startRow, windowCount := rowCount }

def frameAck (s : WorkerState) (renderMs : ℚ) : WorkerState × List WorkerEvent :=
  let r := s.bp.record renderMs
  let s1 := { s with bp := r.1 }
  match r.2 with
  | none => (s1, [])
  | some changed =>
    (s1, [.backpressure
      { strategy := changed, queueDepth := s1.queue.length,
        avgRenderMs := s1.bp.avgMs }])

def init (s : WorkerState) (schema : List ColumnSchema)
    (charWidthHint rowHeightHint viewportHeight : ℚ) :
    WorkerState × List WorkerEvent :=
  let columns := schema.map fun col =>
    match col.type with
    | .utf8 => AnyColumn.utf8Col ⟨[0], []⟩
    | .list_utf8 => AnyColumn.listCol ⟨[0], [0], []⟩
    | ty => AnyColumn.numeric ⟨ty, []⟩
  let lay := resolveLayout schema charWidthHint rowHeightHint 0 viewportHeight
  ({ s with
      charWidthHint := charWidthHint, rowHeightHint := rowHeightHint,
      viewportHeight := viewportHeight, columns := columns,
      layout := some lay, schema := lay.columns,
      windowCount := lay.viewportRows },
    [.layoutReady lay])

end DataWorkerCore

/-! ## AtomicStore (src/core/atomic-store.ts)

Snapshot identity is modelled by a version counter: `merge` always builds a
fresh object via spread, so each merge bumps the version; a dispatch that
does not merge leaves the version (the reference) unchanged. -/

inductive StreamStatus | idle | streaming | complete | error
deriving DecidableEq, Repr

structure StoreState where
  status : StreamStatus
  layout : Option ViewportLayout
  window : Option DataWindow
  backpressure : BackpressureState
  totalRows : Nat
  error : Option String
  pitch : ℚ
deriving DecidableEq, Repr

def INITIAL_STORE_STATE : StoreState :=
  { status := .idle, layout := none, window := none,
    backpressure := { strategy := .NOMINAL, queueDepth := 0, avgRenderMs := 0 },
    totalRows := 0, error := none, pitch := 0 }

structure AtomicStore where
  state : StoreState
  version : Nat
deriving DecidableEq, Repr

def initialAtomicStore : AtomicStore := ⟨INITIAL_STORE_STATE, 0⟩

def AtomicStore.merge (st : AtomicStore) (patch : StoreState → StoreState) :
    AtomicStore :=
  ⟨patch st.state, st.version + 1⟩

def AtomicStore.dispatch (st : AtomicStore) (ev : WorkerEvent) : AtomicStore :=
  match ev with
  | .layoutReady lay =>
    st.merge fun s => { s with layout := some lay, status := .streaming }
  | .windowUpdate w =>
    st.merge fun s => { s with
      window := some w, layout := some w.layout,
      totalRows := w.layout.totalRows }
  | .backpressure bp => st.merge fun s => { s with backpressure := bp }
  | .totalRowsUpdated n =>
    if st.state.totalRows ≠ n then st.merge fun s => { s with totalRows := n }
    else st
  | .ingestError seq msg =>
    st.merge fun s => { s with
      status := .error,
      error := some ("Batch " ++ toString seq ++ ": " ++ msg) }
  | .ingestAck _ => st

/-! ## Scroll handler (handleScroll, src/core/use-stability-orchestrator.ts:188-201) -/

structure SetWindowCmd where
  startRow : ℤ
  rowCount : ℤ
deriving DecidableEq, Repr

/-- `handleScroll`: bails out without a container element, without a layout,
or when `layout.rowHeight` is zero; otherwise sends
`SET_WINDOW { floor(scrollTop / layout.rowHeight), viewportRows + overscanRows * 2 }`.
The consumer-measured pitch is not read here. -/
def handleScroll (el : Bool) (lay : Option ViewportLayout) (scrollTop : ℚ)
    (overscanRows : ℤ) : Option SetWindowCmd :=
  match lay with
  | none => none
  | some lay =>
    if el = false then none
    else if lay.rowHeight = 0 then none
    else some ⟨⌊scrollTop / lay.rowHeight⌋, (lay.viewportRows : ℤ) + overscanRows * 2⟩

/-- Modelled from the spec (§4.5 Scroll handling): the effective row height
the specification prescribes for the scroll computation,
`pitch > 0 ? pitch : layout.rowHeight`.  Stated for comparison with the
source's `handleScroll`, which uses `layout.rowHeight` unconditionally. -/
def specEffectiveRowHeight (pitch rowHeight : ℚ) : ℚ :=
  if 0 < pitch then pitch else rowHeight

/-! ## Statement-level definitions -/

/-- Signed view of a 32-bit pattern, as an Int32Array exposes it. -/
def asInt32 (p : Nat) : ℤ :=
  if p < 2 ^ 31 then (p : ℤ) else (p : ℤ) - 2 ^ 32

/-- The parsed payload the round-trip claim expects per column: the
coerced inputs of §4.1, laid out as the parser views them. -/
def coercedPayload (ty : ColumnDataType) (vals : List JValue) : ColPayload :=
  match ty with
  | .f64 => .num 8 (vals.map coerceF64)
  | .timestamp_ms => .num 8 (vals.map coerceF64)
  | .i32 => .num 4 (vals.map coerce32)
  | .u32 => .num 4 (vals.map coerce32)
  | .bool => .num 1 (vals.map (fun v => if truthy v then 1 else 0))
  | .utf8 =>
    .utf8 (cumLengths (vals.map coerceUtf8)) (vals.map coerceUtf8).flatten
  | .list_utf8 =>
    .listU (vals.map coerceList).flatten.length
      (cumCounts (vals.map coerceList))
      (cumLengths (vals.map coerceList).flatten)
      (vals.map coerceList).flatten.flatten

/-- Input values the model's coercions cover exactly (JS `Number(...)` on
strings and `String(...)` on numbers are outside the model; integer-column
inputs are restricted to the non-wrapping range, f64 patterns to 64 bits). -/
def Typable (ty : ColumnDataType) (v : JValue) : Bool :=
  match ty, v with
  | .f64, .numPat p => p < 2 ^ 64
  | .f64, .undef => true
  | .f64, .jnull => true
  | .f64, _ => false
  | .timestamp_ms, .numPat p => p < 2 ^ 64
  | .timestamp_ms, .undef => true
  | .timestamp_ms, .jnull => true
  | .timestamp_ms, _ => false
  | .i32, .numQ q => decide (-(2 ^ 31 : ℤ) ≤ jsTrunc q ∧ jsTrunc q < 2 ^ 31)
  | .i32, .undef => true
  | .i32, .jnull => true
  | .i32, _ => false
  | .u32, .numQ q => decide (0 ≤ jsTrunc q ∧ jsTrunc q < 2 ^ 32)
  | .u32, .undef => true
  | .u32, .jnull => true
  | .u32, _ => false
  | .bool, _ => true
  | .utf8, .str _ => true
  | .utf8, .undef => true
  | .utf8, .jnull => true
  | .utf8, _ => false
  | .list_utf8, _ => true

/-- A store column's runtime class agrees with its registered schema type. -/
def colMatches (col : AnyColumn) (ty : ColumnDataType) : Bool :=
  match col, ty with
  | .utf8Col _, .utf8 => true
  | .listCol _, .list_utf8 => true
  | .numeric c, ty =>
    c.colType = ty && ty ≠ .utf8 && ty ≠ .list_utf8
  | _, _ => false

/-- Realistic size bounds on a column's stored offsets and bytes, ample
enough that every wire field and Uint32Array write stays below 2^32. -/
def AnyColumn.sizeBound (col : AnyColumn) (n : Nat) : Bool :=
  match col with
  | .numeric _ => true
  | .utf8Col c => decide (c.bytes.length < n) && c.offsets.all (· < n)
  | .listCol c =>
    decide (c.bytes.length < n) && c.rowOffsets.all (· < n) &&
      c.itemOffsets.all (· < n)

/-- A worker state whose store is well-typed and within realistic size
bounds: every reachable post-ingest state satisfies this (P2 ties each
column's row count to `totalRows`). -/
def FlushReady (s : WorkerState) : Prop :=
  s.columns.length = s.schema.length ∧
  s.columns.length < 2 ^ 20 ∧
  s.totalRows < 2 ^ 20 ∧
  s.seqCounter < 2 ^ 32 ∧
  ∀ p ∈ s.columns.zip s.schema,
    colMatches p.1 p.2.type = true ∧ p.1.rowCount = s.totalRows ∧
      p.1.sizeBound (2 ^ 20) = true

/-- The append loop grows this store column by exactly the batch's row
count: runtime class, wire type and typed payload agree (what the pre-check
plus the parser guarantee), and a numeric data block carries one cell per
row.  Variable-length columns also need a live leading offset entry, which
holds from creation on. -/
def appendCompatible (store : AnyColumn) (col : ParsedColData) (rc : Nat) : Bool :=
  match store, col.type, col.payload with
  | .listCol c, .list_utf8, .listU _ _ _ _ => decide (c.rowOffsets ≠ [])
  | .utf8Col c, .utf8, .utf8 _ _ => decide (c.offsets ≠ [])
  | .numeric c, ty, .num _ cells =>
    c.colType = ty && ty ≠ .utf8 && ty ≠ .list_utf8 && cells.length = rc
  | _, _, _ => false

/-- The descriptor bytes of one `(typeTag, byteLen)` pair. -/
def descPairBytes (d : ColumnDataType × Nat) : Bytes :=
  leN 4 (TYPE_TAG d.1) ++ leN 4 d.2

def descListBytes (ds : List (ColumnDataType × Nat)) : Bytes :=
  (ds.map descPairBytes).flatten

/-- The concatenated data blocks of a packed buffer. -/
def blocksBytes (cols : List (ColumnDataType × List Bytes)) : Bytes :=
  (cols.map (fun c => c.2.flatten)).flatten

/-- Does `AtomicStore.dispatch` apply a merge for this event?  Every handled
event merges except `TOTAL_ROWS_UPDATED` with an unchanged count; an
`INGEST_ACK` falls through the switch without merging. -/
def dispatchMerges (st : AtomicStore) (ev : WorkerEvent) : Prop :=
  match ev with
  | .totalRowsUpdated n => st.state.totalRows ≠ n
  | .ingestAck _ => False
  | _ => True

/-! ### Concrete fixtures used by claim theorems and witnesses -/

/-- A worker whose backpressure strategy is SHED and whose queue already
holds `MAX_QUEUE_DEPTH` pending commands, seqs 0..63. -/
def shedState : WorkerState :=
  { initialWorkerState with
      bp := { history := { capacity := 8, data := [30, 30, 30, 30] },
              strategy := .SHED },
      queue := (List.range 64).map (fun i => ⟨[], i⟩) }

def c3Schema : List ColumnSchema :=
  [⟨"organism_ids", .list_utf8, 4, none⟩, ⟨"organism_names", .list_utf8, 4, none⟩]

/-- One row whose two parallel list columns carry 1 and 2 items. -/
def c3Rows : List RowRecord :=
  [fun n => if n = "organism_ids" then .strList [[97]] else .strList [[98], [99]]]

def c3Store : WorkerState :=
  (DataWorkerCore.init initialWorkerState c3Schema 8 36 600).1

def c3Buffer : Bytes := encodeRecordBatch c3Schema c3Rows 0

/-- A consumer store in streaming state, as after LAYOUT_READY. -/
def c3ConsumerStore : AtomicStore :=
  ⟨{ INITIAL_STORE_STATE with status := .streaming }, 1⟩

/-- A committed list_utf8 column: row 0 holds one item of one byte, row 1
holds no items. -/
def c7Column : ListUtf8Column := ⟨[0, 1, 1], [0, 1], [97]⟩

def c7State : WorkerState :=
  { initialWorkerState with
      schema := [⟨"l", .list_utf8, 4, none, 64, 0⟩],
      columns := [.listCol c7Column],
      totalRows := 2, windowStart := 1, windowCount := 1,
      layout := some (resolveLayout [⟨"l", .list_utf8, 4, none⟩] 8 32 2 600) }

/-- A one-bool-column store of two rows with a window request starting
beyond the last row. -/
def c8State : WorkerState :=
  { initialWorkerState with
      schema := [⟨"x", .bool, 1, none, 40, 0⟩],
      columns := [.numeric ⟨.bool, [1, 0]⟩],
      totalRows := 2, windowStart := 5, windowCount := 3,
      layout := some ⟨[⟨"x", .bool, 1, none, 40, 0⟩], 32, 2, 64, 20⟩ }

def c8Window : DataWindow :=
  match (DataWorkerCore.flushWindow c8State).2 with
  | [.windowUpdate w] => w
  | _ => ⟨0, 0, 0, ⟨[], 0, 0, 0, 0⟩, []⟩

/-- A buffer whose single bool column declares `byteLen = 1 + extra` with
only one data byte present: the declared length extends `extra` bytes past
the end of the buffer. -/
def clampBatch (dataByte extra : Nat) : Bytes :=
  leN 4 BATCH_MAGIC ++ leN 4 0 ++ leN 4 1 ++ leN 4 1 ++ leN 4 3 ++
    leN 4 (1 + extra) ++ [dataByte]

/-- A buffer with a valid header and one descriptor whose tag is 7. -/
def badTagBatch : Bytes :=
  leN 4 BATCH_MAGIC ++ leN 4 0 ++ leN 4 0 ++ leN 4 1 ++ leN 4 7 ++ leN 4 0

def c10StoreSchema : List ColumnSchema := [⟨"a", .bool, 1, none⟩]

def c10BatchSchema : List ColumnSchema :=
  [⟨"a", .bool, 1, none⟩, ⟨"b", .bool, 1, none⟩]

def c10Rows : List RowRecord := [fun n => if n = "a" then .jbool true else .jbool false]

def c10Store : WorkerState :=
  (DataWorkerCore.init initialWorkerState c10StoreSchema 8 36 600).1

def c10Buffer : Bytes := encodeRecordBatch c10BatchSchema c10Rows 0

/-- The parse of `c10Buffer`: two bool columns over one row. -/
def c10Batch : ParsedBatch :=
  ⟨0, 1, [⟨.bool, .num 1 [1]⟩, ⟨.bool, .num 1 [0]⟩]⟩

def c5Controller : BackpressureController :=
  { history := { capacity := 8, data := [30, 30, 30] }, strategy := .NOMINAL }

def c5State : WorkerState := { initialWorkerState with bp := c5Controller }

def c6Layout : ViewportLayout := ⟨[], 36, 0, 0, 10⟩

def c4Schema : List ColumnSchema :=
  [⟨"f", .f64, 8, none⟩, ⟨"t", .timestamp_ms, 8, none⟩, ⟨"i", .i32, 8, none⟩,
   ⟨"u", .u32, 8, none⟩, ⟨"b", .bool, 1, none⟩, ⟨"s", .utf8, 8, none⟩,
   ⟨"l", .list_utf8, 8, none⟩]

def c4Rows : List RowRecord :=
  [fun n =>
    if n = "f" then .numPat 4614256656552045848
    else if n = "t" then .numPat 4741671816366391296
    else if n = "i" then .numQ (-5 / 2)
    else if n = "u" then .numQ (7 / 2)
    else if n = "b" then .str [104]
    else if n = "s" then .str [104, 105]
    else .strList [[97], [98, 99]],
   fun n =>
    if n = "l" then .numQ 1 else .jnull]

/-! # Lemmas -/

/-! ## Little-endian byte lemmas -/

theorem leN_length (sz v : Nat) : (leN sz v).length = sz := by
  induction sz generalizing v with
  | zero => simp [leN]
  | succ n ih => simp [leN, ih]

theorem leValue_leN (sz v : Nat) : leValue (leN sz v) = v % 2 ^ (8 * sz) := by
  induction sz generalizing v with
  | zero => simp [leN, leValue, Nat.mod_one]
  | succ n ih =>
    have h : 2 ^ (8 * (n + 1)) = 256 * 2 ^ (8 * n) := by
      rw [show 8 * (n + 1) = 8 + 8 * n by ring, pow_add]
      norm_num
    rw [leN, leValue, ih, h, Nat.mod_mul]

theorem take_append_eq (l₁ l₂ : Bytes) (n : Nat) (h : l₁.length = n) :
    (l₁ ++ l₂).take n = l₁ := by
  subst h
  exact List.take_left l₁ l₂

theorem drop_append_eq (l₁ l₂ : Bytes) (n : Nat) (h : l₁.length = n) :
    (l₁ ++ l₂).drop n = l₂ := by
  subst h
  exact List.drop_left l₁ l₂

theorem readU32_cons (x : Nat) (l : Bytes) (i : Nat) :
    readU32 (x :: l) (i + 1) = readU32 l i := by
  have hc : (i + 1 + 4 ≤ (x :: l).length) ↔ (i + 4 ≤ l.length) := by
    simp only [List.length_cons]
    omega
  by_cases h : i + 4 ≤ l.length
  · rw [readU32, readU32, if_pos h, if_pos (hc.mpr h), List.drop_succ_cons]
  · rw [readU32, readU32, if_neg h, if_neg (fun hh => h (hc.mp hh))]

theorem readU32_append (a l : Bytes) (i : Nat) :
    readU32 (a ++ l) (a.length + i) = readU32 l i := by
  induction a with
  | nil => simp
  | cons x t ih =>
    have : (x :: t).length + i = (t.length + i) + 1 := by
      simp [List.length_cons]
      omega
    rw [List.cons_append, this, readU32_cons, ih]

theorem readU32_le (v : Nat) (rest : Bytes) :
    readU32 (leN 4 v ++ rest) 0 = some (v % 2 ^ 32) := by
  have hlen : 0 + 4 ≤ (leN 4 v ++ rest).length := by
    simp [List.length_append, leN_length]
  rw [readU32, if_pos hlen]
  rw [List.drop_zero, take_append_eq _ _ 4 (leN_length 4 v)]
  rw [leValue_leN]

theorem readU32_isSome_iff (l : Bytes) (i : Nat) :
    (readU32 l i).isSome ↔ i + 4 ≤ l.length := by
  by_cases h : i + 4 ≤ l.length <;> simp [readU32, h]

/-! ## Cell-splitting lemmas -/

theorem readCellsAux_congr (sz : Nat) (hsz : 0 < sz) :
    ∀ f1 f2 b, (b : Bytes).length ≤ f1 → b.length ≤ f2 →
      readCellsAux sz f1 b = readCellsAux sz f2 b := by
  intro f1
  induction f1 with
  | zero =>
    intro f2 b hb1 _
    have : b = [] := List.length_eq_zero.mp (by omega)
    subst this
    cases f2 <;> simp [readCellsAux]
  | succ m ih =>
    intro f2 b hb1 hb2
    cases b with
    | nil => cases f2 <;> simp [readCellsAux]
    | cons x t =>
      cases f2 with
      | zero => simp [List.length_cons] at hb2
      | succ k =>
        simp only [readCellsAux]
        congr 1
        apply ih
        · simp only [List.length_drop, List.length_cons] at hb1 ⊢
          omega
        · simp only [List.length_drop, List.length_cons] at hb2 ⊢
          omega

theorem readCells_nil (sz : Nat) : readCells sz [] = [] := by
  by_cases h : sz = 0 <;> simp [readCells, h, readCellsAux]

theorem readCells_cons (sz : Nat) (hsz : 0 < sz) (c rest : Bytes)
    (hc : c.length = sz) :
    readCells sz (c ++ rest) = leValue c :: readCells sz rest := by
  obtain ⟨n, rfl⟩ : ∃ n, sz = n + 1 := ⟨sz - 1, by omega⟩
  obtain ⟨y, c', rfl⟩ : ∃ y c', c = y :: c' := by
    cases c with
    | nil => simp at hc
    | cons y c' => exact ⟨y, c', rfl⟩
  have hlen : ((y :: c') ++ rest).length = (c'.length + rest.length) + 1 := by
    simp only [List.length_append, List.length_cons]
    omega
  have hc' : c'.length = n := by
    simp only [List.length_cons] at hc
    omega
  rw [readCells, if_neg (by omega), hlen]
  simp only [List.cons_append, readCellsAux, List.take_succ_cons,
    List.drop_succ_cons, List.append_eq]
  rw [take_append_eq c' rest n hc', drop_append_eq c' rest n hc']
  rw [readCells, if_neg (by omega)]
  congr 1
  exact readCellsAux_congr (n + 1) (by omega) _ _ rest (by omega) le_rfl

theorem cellsToBytes_length (sz : Nat) (cells : List Nat) :
    (cellsToBytes sz cells).length = sz * cells.length := by
  induction cells with
  | nil => simp [cellsToBytes]
  | cons c t ih =>
    simp only [cellsToBytes, List.map_cons, List.flatten_cons,
      List.length_append, leN_length, List.length_cons] at ih ⊢
    rw [ih, Nat.mul_succ]
    omega

theorem readCells_cellsToBytes (sz : Nat) (hsz : 0 < sz) (cells : List Nat) :
    readCells sz (cellsToBytes sz cells) = cells.map (· % 2 ^ (8 * sz)) := by
  induction cells with
  | nil => simp [cellsToBytes, readCells_nil]
  | cons c t ih =>
    have : cellsToBytes sz (c :: t) = leN sz c ++ cellsToBytes sz t := by
      simp [cellsToBytes]
    rw [this, readCells_cons sz hsz _ _ (leN_length sz c), leValue_leN, ih]
    simp

theorem u32sToBytes_eq (l : List Nat) : u32sToBytes l = cellsToBytes 4 l := rfl

theorem u32sToBytes_length (l : List Nat) :
    (u32sToBytes l).length = 4 * l.length := by
  rw [u32sToBytes_eq, cellsToBytes_length]

theorem readCells_u32s (l : List Nat) :
    readCells 4 (u32sToBytes l) = l.map (· % 2 ^ 32) := by
  rw [u32sToBytes_eq, readCells_cellsToBytes 4 (by omega)]

/-! ## Parsing a packed buffer -/

theorem readU32_pre (pre : Bytes) (v : Nat) (rest : Bytes) :
    readU32 (pre ++ (leN 4 v ++ rest)) pre.length = some (v % 2 ^ 32) := by
  have h := readU32_append pre (leN 4 v ++ rest) 0
  rw [Nat.add_zero] at h
  rw [h, readU32_le]

theorem readU32_at (pre : Bytes) (k v : Nat) (rest : Bytes) (hk : pre.length = k) :
    readU32 (pre ++ (leN 4 v ++ rest)) k = some (v % 2 ^ 32) := by
  have h := readU32_pre pre v rest
  rw [hk] at h
  exact h

theorem tagToType_typeTag (ty : ColumnDataType) :
    TAG_TO_TYPE (TYPE_TAG ty) = some ty := by
  cases ty <;> rfl

theorem typeTag_lt (ty : ColumnDataType) : TYPE_TAG ty < 2 ^ 32 := by
  cases ty <;> simp [TYPE_TAG]

theorem descPairBytes_length (d : ColumnDataType × Nat) :
    (descPairBytes d).length = 8 := by
  simp [descPairBytes, List.length_append, leN_length]

theorem descListBytes_length (ds : List (ColumnDataType × Nat)) :
    (descListBytes ds).length = 8 * ds.length := by
  induction ds with
  | nil => simp [descListBytes]
  | cons d t ih =>
    simp only [descListBytes, List.map_cons, List.flatten_cons,
      List.length_append, descPairBytes_length, List.length_cons] at ih ⊢
    rw [ih, Nat.mul_succ]
    omega

theorem parseDescriptors_pack (ds : List (ColumnDataType × Nat)) :
    ∀ (pre rest : Bytes),
      parseDescriptors (pre ++ (descListBytes ds ++ rest)) pre.length ds.length =
        .ok (ds.map (fun d => (d.1, d.2 % 2 ^ 32))) := by
  induction ds with
  | nil => intro pre rest; simp [parseDescriptors]
  | cons d t ih =>
    intro pre rest
    have hbuf1 : pre ++ (descListBytes (d :: t) ++ rest) =
        pre ++ (leN 4 (TYPE_TAG d.1) ++
          (leN 4 d.2 ++ (descListBytes t ++ rest))) := by
      simp [descListBytes, descPairBytes, List.append_assoc]
    have hbuf2 : pre ++ (descListBytes (d :: t) ++ rest) =
        (pre ++ leN 4 (TYPE_TAG d.1)) ++
          (leN 4 d.2 ++ (descListBytes t ++ rest)) := by
      simp [descListBytes, descPairBytes, List.append_assoc]
    have hbuf3 : pre ++ (descListBytes (d :: t) ++ rest) =
        (pre ++ descPairBytes d) ++ (descListBytes t ++ rest) := by
      simp [descListBytes, descPairBytes, List.append_assoc]
    have hread1 : readU32 (pre ++ (descListBytes (d :: t) ++ rest)) pre.length =
        some (TYPE_TAG d.1) := by
      rw [hbuf1, readU32_pre, Nat.mod_eq_of_lt (typeTag_lt d.1)]
    have hlen2 : (pre ++ leN 4 (TYPE_TAG d.1)).length = pre.length + 4 := by
      simp [List.length_append, leN_length]
    have hread2 : readU32 (pre ++ (descListBytes (d :: t) ++ rest))
        (pre.length + 4) = some (d.2 % 2 ^ 32) := by
      rw [hbuf2, ← hlen2, readU32_pre]
    have hlen3 : (pre ++ descPairBytes d).length = pre.length + 8 := by
      simp [List.length_append, descPairBytes_length]
    simp only [List.length_cons, parseDescriptors, hread1, hread2,
      tagToType_typeTag]
    rw [show pre.length + 8 = (pre ++ descPairBytes d).length from hlen3.symm,
      hbuf3, ih]
    simp

theorem bufSlice_pre (pre blk rest : Bytes) :
    bufSlice (pre ++ (blk ++ rest)) pre.length (pre.length + blk.length) = blk := by
  rw [bufSlice, drop_append_eq pre (blk ++ rest) pre.length rfl,
    Nat.add_sub_cancel_left, take_append_eq blk rest blk.length rfl]

theorem parseCols_pack (rc : Nat) (cols : List (ColumnDataType × List Bytes))
    (ps : List ColPayload)
    (hcols : List.Forall₂ (fun c p => parseCol c.1 rc c.2.flatten = .ok p) cols ps) :
    ∀ (pre : Bytes),
      parseCols (pre ++ blocksBytes cols) rc pre.length
          (cols.map (fun c => (c.1, c.2.flatten.length))) =
        .ok (List.zipWith (fun c p => ParsedColData.mk c.1 p) cols ps) := by
  induction hcols with
  | nil => intro pre; simp [parseCols, blocksBytes]
  | @cons c p t pt hcp htail ih =>
    intro pre
    have hbuf : pre ++ blocksBytes (c :: t) =
        pre ++ (c.2.flatten ++ blocksBytes t) := by
      simp [blocksBytes, List.append_assoc]
    have hbuf2 : pre ++ blocksBytes (c :: t) =
        (pre ++ c.2.flatten) ++ blocksBytes t := by
      simp [blocksBytes, List.append_assoc]
    have hslice : bufSlice (pre ++ blocksBytes (c :: t)) pre.length
        (pre.length + c.2.flatten.length) = c.2.flatten := by
      rw [hbuf]
      exact bufSlice_pre pre c.2.flatten (blocksBytes t)
    have hlen2 : (pre ++ c.2.flatten).length = pre.length + c.2.flatten.length := by
      simp [List.length_append]
    simp only [List.map_cons, parseCols, hslice, hcp]
    rw [show pre.length + c.2.flatten.length = (pre ++ c.2.flatten).length
        from hlen2.symm, hbuf2, ih]
    simp

theorem parseBatch_pack (seq rc : Nat) (cols : List (ColumnDataType × List Bytes))
    (ps : List ColPayload)
    (hseq : seq < 2 ^ 32) (hrc : rc < 2 ^ 32) (hn : cols.length < 2 ^ 32)
    (hlen : ∀ c ∈ cols, c.2.flatten.length < 2 ^ 32)
    (hcols : List.Forall₂ (fun c p => parseCol c.1 rc c.2.flatten = .ok p) cols ps) :
    parseBatch (packBuffers seq rc cols) =
      .ok ⟨seq, rc, List.zipWith (fun c p => ParsedColData.mk c.1 p) cols ps⟩ := by
  have hmagic_lt : BATCH_MAGIC < 2 ^ 32 := by norm_num [BATCH_MAGIC]
  have hds : (cols.map (fun c =>
      leN 4 (TYPE_TAG c.1) ++ leN 4 ((c.2.map List.length).sum))).flatten =
      descListBytes (cols.map (fun c => (c.1, c.2.flatten.length))) := by
    simp only [descListBytes, List.map_map]
    congr 1
    apply List.map_congr_left
    intro c _
    simp [descPairBytes, Function.comp, List.length_flatten]
  have hrepack : packBuffers seq rc cols =
      leN 4 BATCH_MAGIC ++ (leN 4 seq ++ (leN 4 rc ++ (leN 4 cols.length ++
        (descListBytes (cols.map (fun c => (c.1, c.2.flatten.length))) ++
          blocksBytes cols)))) := by
    rw [packBuffers, hds, blocksBytes]
    simp [List.append_assoc]
  rw [hrepack]
  set buf := leN 4 BATCH_MAGIC ++ (leN 4 seq ++ (leN 4 rc ++ (leN 4 cols.length ++
    (descListBytes (cols.map (fun c => (c.1, c.2.flatten.length))) ++
      blocksBytes cols)))) with hbufdef
  have hread0 : readU32 buf 0 = some BATCH_MAGIC := by
    have h := readU32_le BATCH_MAGIC (leN 4 seq ++ (leN 4 rc ++
      (leN 4 cols.length ++ (descListBytes (cols.map (fun c =>
        (c.1, c.2.flatten.length))) ++ blocksBytes cols))))
    rw [Nat.mod_eq_of_lt hmagic_lt] at h
    exact h
  have hread4 : readU32 buf 4 = some seq := by
    have h := readU32_at (leN 4 BATCH_MAGIC) 4 seq
      (leN 4 rc ++ (leN 4 cols.length ++ (descListBytes (cols.map (fun c =>
        (c.1, c.2.flatten.length))) ++ blocksBytes cols)))
      (leN_length 4 _)
    rw [Nat.mod_eq_of_lt hseq] at h
    exact h
  have hread8 : readU32 buf 8 = some rc := by
    have hb : buf = (leN 4 BATCH_MAGIC ++ leN 4 seq) ++ (leN 4 rc ++
        (leN 4 cols.length ++ (descListBytes (cols.map (fun c =>
          (c.1, c.2.flatten.length))) ++ blocksBytes cols))) := by
      rw [hbufdef]; simp [List.append_assoc]
    have h := readU32_at (leN 4 BATCH_MAGIC ++ leN 4 seq) 8 rc
      (leN 4 cols.length ++ (descListBytes (cols.map (fun c =>
        (c.1, c.2.flatten.length))) ++ blocksBytes cols))
      (by simp [List.length_append, leN_length])
    rw [Nat.mod_eq_of_lt hrc] at h
    rw [hb]
    exact h
  have hread12 : readU32 buf 12 = some cols.length := by
    have hb : buf = (leN 4 BATCH_MAGIC ++ leN 4 seq ++ leN 4 rc) ++
        (leN 4 cols.length ++ (descListBytes (cols.map (fun c =>
          (c.1, c.2.flatten.length))) ++ blocksBytes cols)) := by
      rw [hbufdef]; simp [List.append_assoc]
    have h := readU32_at (leN 4 BATCH_MAGIC ++ leN 4 seq ++ leN 4 rc) 12
      cols.length
      (descListBytes (cols.map (fun c => (c.1, c.2.flatten.length))) ++
        blocksBytes cols)
      (by simp [List.length_append, leN_length])
    rw [Nat.mod_eq_of_lt hn] at h
    rw [hb]
    exact h
  have hdescs : parseDescriptors buf 16 cols.length =
      .ok (cols.map (fun c => (c.1, c.2.flatten.length))) := by
    have hb : buf = (leN 4 BATCH_MAGIC ++ leN 4 seq ++ leN 4 rc ++
        leN 4 cols.length) ++
        (descListBytes (cols.map (fun c => (c.1, c.2.flatten.length))) ++
          blocksBytes cols) := by
      rw [hbufdef]; simp [List.append_assoc]
    have hl : (leN 4 BATCH_MAGIC ++ leN 4 seq ++ leN 4 rc ++
        leN 4 cols.length).length = 16 := by
      simp [List.length_append, leN_length]
    have h := parseDescriptors_pack (cols.map (fun c => (c.1, c.2.flatten.length)))
      (leN 4 BATCH_MAGIC ++ leN 4 seq ++ leN 4 rc ++ leN 4 cols.length)
      (blocksBytes cols)
    rw [hl, List.length_map] at h
    rw [hb, h]
    congr 1
    rw [List.map_map]
    apply List.map_congr_left
    intro c hc
    simp only [Function.comp_apply, Nat.mod_eq_of_lt (hlen c hc)]
  have hparse : parseCols buf rc (16 + 8 * cols.length)
      (cols.map (fun c => (c.1, c.2.flatten.length))) =
      .ok (List.zipWith (fun c p => ParsedColData.mk c.1 p) cols ps) := by
    have hb : buf = (leN 4 BATCH_MAGIC ++ leN 4 seq ++ leN 4 rc ++
        leN 4 cols.length ++
        descListBytes (cols.map (fun c => (c.1, c.2.flatten.length)))) ++
        blocksBytes cols := by
      rw [hbufdef]; simp [List.append_assoc]
    have hl2 : (leN 4 BATCH_MAGIC ++ leN 4 seq ++ leN 4 rc ++
        leN 4 cols.length ++
        descListBytes (cols.map (fun c => (c.1, c.2.flatten.length)))).length =
        16 + 8 * cols.length := by
      simp only [List.length_append, leN_length, descListBytes_length,
        List.length_map]
      try omega
    rw [hb, ← hl2]
    exact parseCols_pack rc cols ps hcols _
  rw [parseBatch, hread0]
  simp only [hread4, hread8, hread12, hdescs, ne_eq, eq_self_iff_true,
    not_true_eq_false, if_false]
  rw [hparse]

/-! ## Per-column payload parsing -/

theorem parseCol_num (ty : ColumnDataType) (hty1 : ty ≠ .utf8)
    (hty2 : ty ≠ .list_utf8) (rc : Nat) (cells : List Nat) :
    parseCol ty rc (cellsToBytes (elemSizeOf ty) cells) =
      .ok (.num (elemSizeOf ty) (cells.map (· % 2 ^ (8 * elemSizeOf ty)))) := by
  cases ty with
  | utf8 => exact absurd rfl hty1
  | list_utf8 => exact absurd rfl hty2
  | f64 =>
    simp [parseCol, elemSizeOf, cellsToBytes_length, Nat.mul_mod_right,
      readCells_cellsToBytes 8 (by omega)]
  | timestamp_ms =>
    simp [parseCol, elemSizeOf, cellsToBytes_length, Nat.mul_mod_right,
      readCells_cellsToBytes 8 (by omega)]
  | i32 =>
    simp [parseCol, elemSizeOf, cellsToBytes_length, Nat.mul_mod_right,
      readCells_cellsToBytes 4 (by omega)]
  | u32 =>
    simp [parseCol, elemSizeOf, cellsToBytes_length, Nat.mul_mod_right,
      readCells_cellsToBytes 4 (by omega)]
  | bool =>
    simp [parseCol, elemSizeOf, cellsToBytes_length, Nat.mul_mod_right,
      Nat.mod_one, readCells_cellsToBytes 1 (by omega)]

theorem parseCol_utf8 (rc : Nat) (offs : List Nat) (sbytes : Bytes)
    (hoffs : offs.length = rc + 1) :
    parseCol .utf8 rc (u32sToBytes offs ++ sbytes) =
      .ok (.utf8 (offs.map (· % 2 ^ 32)) sbytes) := by
  have hl : (u32sToBytes offs).length = (rc + 1) * 4 := by
    rw [u32sToBytes_length, hoffs]
    ring
  simp only [parseCol]
  rw [take_append_eq _ _ _ hl, drop_append_eq _ _ _ hl]
  rw [hl]
  simp [Nat.mul_mod_left, readCells_u32s]

theorem parseCol_list (rc ti : Nat) (ro io : List Nat) (bys : Bytes)
    (hro : ro.length = rc + 1) (hio : io.length = ti + 1) (hti : ti < 2 ^ 32) :
    parseCol .list_utf8 rc
        (leN 4 ti ++ (u32sToBytes ro ++ (u32sToBytes io ++ bys))) =
      .ok (.listU ti (ro.map (· % 2 ^ 32)) (io.map (· % 2 ^ 32)) bys) := by
  have hlro : (u32sToBytes ro).length = (rc + 1) * 4 := by
    rw [u32sToBytes_length, hro]; ring
  have hlio : (u32sToBytes io).length = (ti + 1) * 4 := by
    rw [u32sToBytes_length, hio]; ring
  have hlen4 : (leN 4 ti).length = 4 := leN_length 4 ti
  have hlen_total : (leN 4 ti ++ (u32sToBytes ro ++ (u32sToBytes io ++ bys))).length =
      4 + ((rc + 1) * 4 + ((ti + 1) * 4 + bys.length)) := by
    simp [List.length_append, hlen4, hlro, hlio]
  have htake4 : (leN 4 ti ++ (u32sToBytes ro ++ (u32sToBytes io ++ bys))).take 4 =
      leN 4 ti := take_append_eq _ _ 4 hlen4
  have htotal : leValue ((leN 4 ti ++ (u32sToBytes ro ++
      (u32sToBytes io ++ bys))).take 4) = ti := by
    rw [htake4, leValue_leN]
    exact Nat.mod_eq_of_lt (by simpa using hti)
  have hrow : bufSlice (leN 4 ti ++ (u32sToBytes ro ++ (u32sToBytes io ++ bys)))
      4 (4 + (rc + 1) * 4) = u32sToBytes ro := by
    have h := bufSlice_pre (leN 4 ti) (u32sToBytes ro) (u32sToBytes io ++ bys)
    rw [hlen4, hlro] at h
    exact h
  have hitem : bufSlice (leN 4 ti ++ (u32sToBytes ro ++ (u32sToBytes io ++ bys)))
      (4 + (rc + 1) * 4) ((4 + (rc + 1) * 4) + (ti + 1) * 4) = u32sToBytes io := by
    have hassoc : leN 4 ti ++ (u32sToBytes ro ++ (u32sToBytes io ++ bys)) =
        (leN 4 ti ++ u32sToBytes ro) ++ (u32sToBytes io ++ bys) := by
      simp [List.append_assoc]
    have hpl : (leN 4 ti ++ u32sToBytes ro).length = 4 + (rc + 1) * 4 := by
      simp [List.length_append, hlen4, hlro]
    have h := bufSlice_pre (leN 4 ti ++ u32sToBytes ro) (u32sToBytes io) bys
    rw [hpl, hlio] at h
    rw [hassoc]
    exact h
  have hdrop : (leN 4 ti ++ (u32sToBytes ro ++ (u32sToBytes io ++ bys))).drop
      ((4 + (rc + 1) * 4) + (ti + 1) * 4) = bys := by
    have hassoc : leN 4 ti ++ (u32sToBytes ro ++ (u32sToBytes io ++ bys)) =
        (leN 4 ti ++ u32sToBytes ro ++ u32sToBytes io) ++ bys := by
      simp [List.append_assoc]
    have hpl : (leN 4 ti ++ u32sToBytes ro ++ u32sToBytes io).length =
        (4 + (rc + 1) * 4) + (ti + 1) * 4 := by
      simp only [List.length_append, hlen4, hlro, hlio]
    rw [hassoc]
    exact drop_append_eq _ _ _ hpl
  simp only [parseCol]
  rw [if_neg (by rw [hlen_total]; omega)]
  rw [htotal, hrow, hitem, hdrop]
  rw [if_neg (by rw [hlro]; simp [Nat.mul_mod_left])]
  rw [if_neg (by rw [hlio]; simp [Nat.mul_mod_left])]
  simp [readCells_u32s]

/-! ## Encoder-side column lemmas (round trip) -/

theorem coerce32_lt (v : JValue) : coerce32 v < 2 ^ 32 := by
  unfold coerce32
  rw [show ((2 : ℤ) ^ 32) = 4294967296 by norm_num,
    show ((2 : ℕ) ^ 32) = 4294967296 by norm_num]
  omega

theorem typable_f64_lt (v : JValue) (h : Typable .f64 v = true) :
    coerceF64 v < 2 ^ 64 := by
  cases v <;> simp [Typable, coerceF64] at h ⊢ <;> omega

theorem typable_ts_lt (v : JValue) (h : Typable .timestamp_ms v = true) :
    coerceF64 v < 2 ^ 64 := by
  cases v <;> simp [Typable, coerceF64] at h ⊢ <;> omega

theorem scanl_add_le (m : Bytes → Nat) :
    ∀ (l : List Bytes) (acc : Nat) (x : Nat),
      x ∈ l.scanl (fun a s => a + m s) acc → x ≤ acc + (l.map m).sum := by
  intro l
  induction l with
  | nil =>
    intro acc x hx
    simp [List.scanl] at hx
    simp [hx]
  | cons s t ih =>
    intro acc x hx
    simp only [List.scanl] at hx
    rcases List.mem_cons.mp hx with h | h
    · simp [h]
    · have := ih (acc + m s) x h
      simp only [List.map_cons, List.sum_cons]
      omega

theorem scanl_count_le (m : List Bytes → Nat) :
    ∀ (l : List (List Bytes)) (acc : Nat) (x : Nat),
      x ∈ l.scanl (fun a s => a + m s) acc → x ≤ acc + (l.map m).sum := by
  intro l
  induction l with
  | nil =>
    intro acc x hx
    simp [List.scanl] at hx
    simp [hx]
  | cons s t ih =>
    intro acc x hx
    simp only [List.scanl] at hx
    rcases List.mem_cons.mp hx with h | h
    · simp [h]
    · have := ih (acc + m s) x h
      simp only [List.map_cons, List.sum_cons]
      omega

theorem cumLengths_length (ls : List Bytes) :
    (cumLengths ls).length = ls.length + 1 := by
  simp [cumLengths, List.length_scanl]

theorem cumCounts_length (rows : List (List Bytes)) :
    (cumCounts rows).length = rows.length + 1 := by
  simp [cumCounts, List.length_scanl]

theorem cumLengths_le (ls : List Bytes) (x : Nat) (hx : x ∈ cumLengths ls) :
    x ≤ ls.flatten.length := by
  have := scanl_add_le List.length ls 0 x hx
  simpa [List.length_flatten] using this

theorem cumCounts_le (rows : List (List Bytes)) (x : Nat)
    (hx : x ∈ cumCounts rows) : x ≤ rows.flatten.length := by
  have := scanl_count_le List.length rows 0 x hx
  simpa [List.length_flatten] using this

theorem forall₂_map_map {α β γ : Type _} (l : List α) (f : α → β) (g : α → γ)
    (R : β → γ → Prop) (h : ∀ x ∈ l, R (f x) (g x)) :
    List.Forall₂ R (l.map f) (l.map g) := by
  induction l with
  | nil => simp
  | cons a t ih =>
    simp only [List.map_cons]
    exact List.Forall₂.cons (h a (by simp))
      (ih (fun x hx => h x (List.mem_cons_of_mem a hx)))

theorem zipWith_map_same {α β γ δ : Type _} (l : List α) (f : α → β)
    (g : α → γ) (h : β → γ → δ) :
    List.zipWith h (l.map f) (l.map g) = l.map (fun x => h (f x) (g x)) := by
  induction l with
  | nil => simp
  | cons a t ih => simp [ih]

theorem parseCol_encCol (ty : ColumnDataType) (vals : List JValue) (rc : Nat)
    (hrc : vals.length = rc)
    (htyp : ∀ v ∈ vals, Typable ty v = true)
    (hsize : ((encCol ty vals).map List.length).sum < 2 ^ 32) :
    parseCol ty rc (encCol ty vals).flatten = .ok (coercedPayload ty vals) := by
  cases ty with
  | f64 =>
    have hflat : (encCol .f64 vals).flatten =
        cellsToBytes 8 (vals.map coerceF64) := by simp [encCol]
    have h := parseCol_num .f64 (by simp) (by simp) rc (vals.map coerceF64)
    simp only [elemSizeOf] at h
    have hmm : (vals.map coerceF64).map (· % 2 ^ (8 * 8)) = vals.map coerceF64 := by
      rw [List.map_map]
      exact List.map_congr_left (fun v hv =>
        Nat.mod_eq_of_lt (by simpa using typable_f64_lt v (htyp v hv)))
    rw [hflat, h, hmm, coercedPayload]
  | timestamp_ms =>
    have hflat : (encCol .timestamp_ms vals).flatten =
        cellsToBytes 8 (vals.map coerceF64) := by simp [encCol]
    have h := parseCol_num .timestamp_ms (by simp) (by simp) rc
      (vals.map coerceF64)
    simp only [elemSizeOf] at h
    have hmm : (vals.map coerceF64).map (· % 2 ^ (8 * 8)) = vals.map coerceF64 := by
      rw [List.map_map]
      exact List.map_congr_left (fun v hv =>
        Nat.mod_eq_of_lt (by simpa using typable_ts_lt v (htyp v hv)))
    rw [hflat, h, hmm, coercedPayload]
  | i32 =>
    have hflat : (encCol .i32 vals).flatten =
        cellsToBytes 4 (vals.map coerce32) := by simp [encCol]
    have h := parseCol_num .i32 (by simp) (by simp) rc (vals.map coerce32)
    simp only [elemSizeOf] at h
    have hmm : (vals.map coerce32).map (· % 2 ^ (8 * 4)) = vals.map coerce32 := by
      rw [List.map_map]
      exact List.map_congr_left (fun v _ =>
        Nat.mod_eq_of_lt (by simpa using coerce32_lt v))
    rw [hflat, h, hmm, coercedPayload]
  | u32 =>
    have hflat : (encCol .u32 vals).flatten =
        cellsToBytes 4 (vals.map coerce32) := by simp [encCol]
    have h := parseCol_num .u32 (by simp) (by simp) rc (vals.map coerce32)
    simp only [elemSizeOf] at h
    have hmm : (vals.map coerce32).map (· % 2 ^ (8 * 4)) = vals.map coerce32 := by
      rw [List.map_map]
      exact List.map_congr_left (fun v _ =>
        Nat.mod_eq_of_lt (by simpa using coerce32_lt v))
    rw [hflat, h, hmm, coercedPayload]
  | bool =>
    have hflat : (encCol .bool vals).flatten =
        cellsToBytes 1 (vals.map (fun v => if truthy v then 1 else 0)) := by
      simp [encCol]
    have h := parseCol_num .bool (by simp) (by simp) rc
      (vals.map (fun v => if truthy v then 1 else 0))
    simp only [elemSizeOf] at h
    have hmm : (vals.map (fun v => if truthy v then 1 else 0)).map
        (· % 2 ^ (8 * 1)) = vals.map (fun v => if truthy v then 1 else 0) := by
      rw [List.map_map]
      refine List.map_congr_left (fun v _ => ?_)
      by_cases hv : truthy v <;> simp [hv]
    rw [hflat, h, hmm, coercedPayload]
  | utf8 =>
    have hflat : (encCol .utf8 vals).flatten =
        u32sToBytes (cumLengths (vals.map coerceUtf8)) ++
          (vals.map coerceUtf8).flatten := by
      simp [encCol]
    have hoffs : (cumLengths (vals.map coerceUtf8)).length = rc + 1 := by
      rw [cumLengths_length, List.length_map, hrc]
    rw [hflat, parseCol_utf8 rc _ _ hoffs, coercedPayload]
    have hbytes_lt : (vals.map coerceUtf8).flatten.length < 2 ^ 32 := by
      simp only [encCol, List.map_cons, List.map_nil, List.sum_cons,
        List.sum_nil] at hsize
      omega
    have hmods : ∀ x ∈ cumLengths (vals.map coerceUtf8), x % 2 ^ 32 = x := by
      intro x hx
      exact Nat.mod_eq_of_lt (lt_of_le_of_lt (cumLengths_le _ x hx) hbytes_lt)
    rw [List.map_congr_left hmods]
    simp
  | list_utf8 =>
    have hflat : (encCol .list_utf8 vals).flatten =
        leN 4 (vals.map coerceList).flatten.length ++
          (u32sToBytes (cumCounts (vals.map coerceList)) ++
            (u32sToBytes (cumLengths (vals.map coerceList).flatten) ++
              (vals.map coerceList).flatten.flatten)) := by
      simp [encCol]
    have hro : (cumCounts (vals.map coerceList)).length = rc + 1 := by
      rw [cumCounts_length, List.length_map, hrc]
    have hio : (cumLengths (vals.map coerceList).flatten).length =
        (vals.map coerceList).flatten.length + 1 := by
      rw [cumLengths_length]
    have hsz : ((encCol .list_utf8 vals).map List.length).sum =
        4 + (4 * ((vals.map coerceList).length + 1) +
          (4 * ((vals.map coerceList).flatten.length + 1) +
            (vals.map coerceList).flatten.flatten.length)) := by
      simp only [encCol, List.map_cons, List.map_nil, List.sum_cons,
        List.sum_nil, leN_length, u32sToBytes_length, cumCounts_length,
        cumLengths_length]
      ring
    have hti : (vals.map coerceList).flatten.length < 2 ^ 32 := by
      rw [hsz] at hsize
      omega
    have hbytes_lt : (vals.map coerceList).flatten.flatten.length < 2 ^ 32 := by
      rw [hsz] at hsize
      omega
    rw [hflat, parseCol_list rc _ _ _ _ hro hio hti, coercedPayload]
    have h1 : ∀ x ∈ cumCounts (vals.map coerceList), x % 2 ^ 32 = x := by
      intro x hx
      exact Nat.mod_eq_of_lt (lt_of_le_of_lt (cumCounts_le _ x hx) hti)
    have h2 : ∀ x ∈ cumLengths (vals.map coerceList).flatten,
        x % 2 ^ 32 = x := by
      intro x hx
      exact Nat.mod_eq_of_lt (lt_of_le_of_lt (cumLengths_le _ x hx) hbytes_lt)
    rw [List.map_congr_left h1, List.map_congr_left h2]
    simp

/-! ## Window-slice parsing (flushWindow well-formedness) -/

theorem all_lt_of_all_eq_true (l : List Nat) (n : Nat)
    (h : l.all (· < n) = true) : ∀ x ∈ l, x < n := by
  intro x hx
  have := List.all_eq_true.mp h x hx
  simpa using this

theorem getD_lt (l : List Nat) (i n : Nat) (hall : ∀ x ∈ l, x < n)
    (hn : 0 < n) : l.getD i 0 < n := by
  rcases Nat.lt_or_ge i l.length with hi | hi
  · rw [List.getD_eq_getElem l 0 hi]
    exact hall _ (List.getElem_mem hi)
  · rw [List.getD_eq_default l 0 hi]
    exact hn

theorem elemSizeOf_le_8 (ty : ColumnDataType) : elemSizeOf ty ≤ 8 := by
  cases ty <;> simp [elemSizeOf]

theorem parseCol_slice_numeric (c : NumericColumn) (ty : ColumnDataType)
    (hmatch : colMatches (.numeric c) ty = true) (start count : Nat) :
    (∃ p, parseCol ty count (sliceBufs (.numeric c) start count).flatten = .ok p) ∧
    (sliceBufs (.numeric c) start count).flatten.length ≤ 8 * count := by
  simp only [colMatches, Bool.and_eq_true, decide_eq_true_eq] at hmatch
  obtain ⟨⟨hct, hne1⟩, hne2⟩ := hmatch
  have hflat : (sliceBufs (.numeric c) start count).flatten =
      cellsToBytes c.elemSize ((c.cells.drop start).take
        (min (start + count) c.cells.length - start)) := by
    simp [sliceBufs, NumericColumn.copySlice]
  have hsz : c.elemSize = elemSizeOf ty := by
    simp [NumericColumn.elemSize, hct]
  constructor
  · refine ⟨ColPayload.num (elemSizeOf ty) (((c.cells.drop start).take
      (min (start + count) c.cells.length - start)).map
        (· % 2 ^ (8 * elemSizeOf ty))), ?_⟩
    rw [hflat, hsz]
    exact parseCol_num ty hne1 hne2 count _
  · rw [hflat, cellsToBytes_length, hsz]
    have h1 : ((c.cells.drop start).take
        (min (start + count) c.cells.length - start)).length ≤ count := by
      rw [List.length_take]
      omega
    have h2 := elemSizeOf_le_8 ty
    calc elemSizeOf ty * ((c.cells.drop start).take
          (min (start + count) c.cells.length - start)).length
        ≤ 8 * count := Nat.mul_le_mul h2 h1

theorem parseCol_slice_utf8 (c : Utf8Column) (start count tr : Nat)
    (hrows : c.rowCount = tr) (hcount : start + count ≤ tr) :
    (∃ p, parseCol .utf8 count (sliceBufs (.utf8Col c) start count).flatten = .ok p) ∧
    (sliceBufs (.utf8Col c) start count).flatten.length ≤
      4 * (count + 1) + c.bytes.length := by
  have hact : min (start + count) c.rowCount - start = count := by
    omega
  have hflat : (sliceBufs (.utf8Col c) start count).flatten =
      u32sToBytes ((c.copySlice start count).offsets) ++
        (c.copySlice start count).bytes := by
    simp [sliceBufs]
  have hoffs : ((c.copySlice start count).offsets).length = count + 1 := by
    simp [Utf8Column.copySlice, hact]
  have hbytes : ((c.copySlice start count).bytes).length ≤ c.bytes.length := by
    simp only [Utf8Column.copySlice, List.length_take, List.length_drop]
    omega
  constructor
  · refine ⟨ColPayload.utf8 (((c.copySlice start count).offsets).map (· % 2 ^ 32))
      ((c.copySlice start count).bytes), ?_⟩
    rw [hflat]
    exact parseCol_utf8 count _ _ hoffs
  · rw [hflat]
    simp only [List.length_append, u32sToBytes_length, hoffs]
    omega

theorem parseCol_slice_list (c : ListUtf8Column) (start count tr : Nat)
    (hrows : c.rowCount = tr) (hcount : start + count ≤ tr)
    (hbound : (AnyColumn.listCol c).sizeBound (2 ^ 20) = true) :
    (∃ p, parseCol .list_utf8 count (sliceBufs (.listCol c) start count).flatten = .ok p) ∧
    (sliceBufs (.listCol c) start count).flatten.length ≤
      8 + 4 * (count + 1) + 4 * 2 ^ 20 + c.bytes.length := by
  simp only [AnyColumn.sizeBound, Bool.and_eq_true, decide_eq_true_eq] at hbound
  obtain ⟨⟨hblen, hroall⟩, hioall⟩ := hbound
  have hro_lt := all_lt_of_all_eq_true _ _ hroall
  have hact : min (start + count) c.rowCount - start = count := by
    omega
  set sl := c.copySlice start count with hsl
  have hflat : (sliceBufs (.listCol c) start count).flatten =
      leN 4 sl.sliceItems ++ (u32sToBytes sl.rowOffsets ++
        (u32sToBytes sl.itemOffsets ++ sl.bytes)) := by
    simp [sliceBufs, hsl]
  have hsi_lt : sl.sliceItems < 2 ^ 20 := by
    have h1 : c.rowOffsets.getD (start + (min (start + count) c.rowCount - start)) 0
        < 2 ^ 20 := getD_lt _ _ _ hro_lt (by norm_num)
    have h2 : sl.sliceItems ≤ c.rowOffsets.getD
        (start + (min (start + count) c.rowCount - start)) 0 := by
      simp only [hsl, ListUtf8Column.copySlice]
      omega
    omega
  have hro_len : sl.rowOffsets.length = count + 1 := by
    simp [hsl, ListUtf8Column.copySlice, hact]
  have hio_len : sl.itemOffsets.length = sl.sliceItems + 1 := by
    simp [hsl, ListUtf8Column.copySlice]
  have hbys : sl.bytes.length ≤ c.bytes.length := by
    simp only [hsl, ListUtf8Column.copySlice, List.length_take, List.length_drop]
    omega
  constructor
  · refine ⟨ColPayload.listU sl.sliceItems (sl.rowOffsets.map (· % 2 ^ 32))
      (sl.itemOffsets.map (· % 2 ^ 32)) sl.bytes, ?_⟩
    rw [hflat]
    exact parseCol_list count sl.sliceItems sl.rowOffsets sl.itemOffsets
      sl.bytes hro_len hio_len (by omega)
  · rw [hflat]
    simp only [List.length_append, u32sToBytes_length, leN_length,
      hro_len, hio_len]
    omega

theorem forall₂_exists {α β : Type _} (l : List α) (P : α → β → Prop)
    (h : ∀ x ∈ l, ∃ y, P x y) : ∃ ys, List.Forall₂ P l ys := by
  induction l with
  | nil => exact ⟨[], List.Forall₂.nil⟩
  | cons a t ih =>
    obtain ⟨y, hy⟩ := h a (by simp)
    obtain ⟨ys, hys⟩ := ih (fun x hx => h x (List.mem_cons_of_mem a hx))
    exact ⟨y :: ys, List.Forall₂.cons hy hys⟩

/-- Any store column matching its schema type, sliced within its row
count, yields a block the parser accepts, of bounded length. -/
theorem sliceBufs_parse (col : AnyColumn) (ty : ColumnDataType)
    (start count tot : Nat)
    (hm : colMatches col ty = true) (hrc : col.rowCount = tot)
    (hcount : start + count ≤ tot) (hcnt : count < 2 ^ 20)
    (hsb : col.sizeBound (2 ^ 20) = true) :
    (∃ p, parseCol ty count (sliceBufs col start count).flatten = .ok p) ∧
    (sliceBufs col start count).flatten.length < 2 ^ 32 := by
  cases col with
  | numeric c =>
    obtain ⟨hex, hb⟩ := parseCol_slice_numeric c ty hm start count
    refine ⟨hex, ?_⟩
    rw [show (2 : Nat) ^ 32 = 4294967296 from by norm_num]
    rw [show (2 : Nat) ^ 20 = 1048576 from by norm_num] at hcnt
    omega
  | utf8Col c =>
    have hty : ty = .utf8 := by
      cases ty <;> simp_all [colMatches]
    subst hty
    have hrc' : c.rowCount = tot := hrc
    obtain ⟨hex, hb⟩ := parseCol_slice_utf8 c start count tot hrc' hcount
    have hbytes : c.bytes.length < 2 ^ 20 := by
      simp only [AnyColumn.sizeBound, Bool.and_eq_true, decide_eq_true_eq] at hsb
      exact hsb.1
    refine ⟨hex, ?_⟩
    rw [show (2 : Nat) ^ 32 = 4294967296 from by norm_num]
    rw [show (2 : Nat) ^ 20 = 1048576 from by norm_num] at hcnt hbytes
    omega
  | listCol c =>
    have hty : ty = .list_utf8 := by
      cases ty <;> simp_all [colMatches]
    subst hty
    have hrc' : c.rowCount = tot := hrc
    obtain ⟨hex, hb⟩ := parseCol_slice_list c start count tot hrc' hcount hsb
    have hbytes : c.bytes.length < 2 ^ 20 := by
      simp only [AnyColumn.sizeBound, Bool.and_eq_true, decide_eq_true_eq] at hsb
      exact hsb.1.1
    refine ⟨hex, ?_⟩
    rw [show (2 : Nat) ^ 32 = 4294967296 from by norm_num]
    rw [show (2 : Nat) ^ 20 = 1048576 from by norm_num] at hcnt hbytes hb
    omega

/-! ## Append-loop lemmas (ingest commit) -/

theorem numericAppend_rowCount (c : NumericColumn) (src : List Nat) :
    (c.append src).rowCount = c.rowCount + src.length := by
  simp [NumericColumn.append, NumericColumn.rowCount, List.length_append]

theorem utf8Append_rowCount (c : Utf8Column) (srcOffsets : List Nat)
    (srcBytes : Bytes) (rc : Nat) (h : c.offsets ≠ []) :
    (c.append srcOffsets srcBytes rc).rowCount = c.rowCount + rc := by
  have : 0 < c.offsets.length := List.length_pos.mpr h
  simp only [Utf8Column.append, Utf8Column.rowCount, List.length_append,
    List.length_map, List.length_range]
  omega

theorem listAppend_rowCount (c : ListUtf8Column) (ti : Nat)
    (ro io : List Nat) (bys : Bytes) (rc : Nat) (h : c.rowOffsets ≠ []) :
    (c.append ti ro io bys rc).rowCount = c.rowCount + rc := by
  have : 0 < c.rowOffsets.length := List.length_pos.mpr h
  simp only [ListUtf8Column.append, ListUtf8Column.rowCount, List.length_append,
    List.length_map, List.length_range]
  omega

theorem appendParsed_rowCount (store : AnyColumn) (col : ParsedColData)
    (rc : Nat) (h : appendCompatible store col rc = true) :
    (DataWorkerCore.appendParsed store col rc).rowCount = store.rowCount + rc := by
  obtain ⟨ty, payload⟩ := col
  cases store with
  | numeric c =>
    cases payload with
    | num sz cells =>
      simp only [appendCompatible, Bool.and_eq_true, decide_eq_true_eq] at h
      obtain ⟨⟨⟨hct, hne1⟩, hne2⟩, hlen⟩ := h
      cases ty <;> simp_all [DataWorkerCore.appendParsed, AnyColumn.rowCount,
        numericAppend_rowCount]
    | utf8 o b => simp [appendCompatible] at h
    | listU a b d e => simp [appendCompatible] at h
  | utf8Col c =>
    cases payload with
    | utf8 o b =>
      cases ty with
      | utf8 =>
        simp only [appendCompatible, decide_eq_true_eq] at h
        simp [DataWorkerCore.appendParsed, AnyColumn.rowCount,
          utf8Append_rowCount c o b rc h]
      | f64 => simp [appendCompatible] at h
      | timestamp_ms => simp [appendCompatible] at h
      | i32 => simp [appendCompatible] at h
      | u32 => simp [appendCompatible] at h
      | bool => simp [appendCompatible] at h
      | list_utf8 => simp [appendCompatible] at h
    | num sz cells => simp [appendCompatible] at h
    | listU a b d e => simp [appendCompatible] at h
  | listCol c =>
    cases payload with
    | listU a b d e =>
      cases ty with
      | list_utf8 =>
        simp only [appendCompatible, decide_eq_true_eq] at h
        simp [DataWorkerCore.appendParsed, AnyColumn.rowCount,
          listAppend_rowCount c a b d e rc h]
      | f64 => simp [appendCompatible] at h
      | timestamp_ms => simp [appendCompatible] at h
      | i32 => simp [appendCompatible] at h
      | u32 => simp [appendCompatible] at h
      | bool => simp [appendCompatible] at h
      | utf8 => simp [appendCompatible] at h
    | num sz cells => simp [appendCompatible] at h
    | utf8 o b => simp [appendCompatible] at h

theorem appendAll_length (stores : List AnyColumn) (cols : List ParsedColData)
    (rc : Nat) : (DataWorkerCore.appendAll stores cols rc).length = stores.length := by
  induction stores generalizing cols with
  | nil => simp [DataWorkerCore.appendAll]
  | cons s ss ih =>
    cases cols with
    | nil => simp [DataWorkerCore.appendAll]
    | cons c cs => simp [DataWorkerCore.appendAll, ih]

theorem appendAll_rowCount (stores : List AnyColumn) (cols : List ParsedColData)
    (rc tot : Nat) (hlen : stores.length ≤ cols.length)
    (hcompat : ∀ p ∈ stores.zip cols,
      appendCompatible p.1 p.2 rc = true ∧ p.1.rowCount = tot) :
    ∀ c ∈ DataWorkerCore.appendAll stores cols rc, c.rowCount = tot + rc := by
  induction stores generalizing cols with
  | nil => simp [DataWorkerCore.appendAll]
  | cons s ss ih =>
    cases cols with
    | nil => simp at hlen
    | cons c cs =>
      intro x hx
      simp only [DataWorkerCore.appendAll, List.mem_cons] at hx
      rcases hx with rfl | hx
      · obtain ⟨hc, hr⟩ := hcompat (s, c) (by simp [List.zip_cons_cons])
        rw [appendParsed_rowCount s c rc hc, hr]
      · exact ih cs (by simpa using hlen)
          (fun p hp => hcompat p (by simp [List.zip_cons_cons, hp])) x hx

theorem appendAll_take (stores : List AnyColumn) (cols : List ParsedColData)
    (rc : Nat) :
    DataWorkerCore.appendAll stores cols rc =
      DataWorkerCore.appendAll stores (cols.take stores.length) rc := by
  induction stores generalizing cols with
  | nil => simp [DataWorkerCore.appendAll]
  | cons s ss ih =>
    cases cols with
    | nil => simp [DataWorkerCore.appendAll]
    | cons c cs =>
      simp only [List.length_cons, List.take_succ_cons,
        DataWorkerCore.appendAll]
      rw [ih cs]

theorem findIdx?_eq_none_of (l : List AnyColumn) (p : AnyColumn → Bool)
    (h : ∀ x ∈ l, p x = false) : l.findIdx? p = none := by
  rw [List.findIdx?_eq_none_iff]
  intro x hx
  simpa using h x hx

/-! ## Descriptor-loop failure (unknown type tag) -/

theorem parseDescriptors_unknown (b : Bytes) (tbad : Nat)
    (hbad : TAG_TO_TYPE tbad = none) :
    ∀ (j n cursor : Nat), j < n →
      (∀ k < j, ∃ t, readU32 b (cursor + 8 * k) = some t ∧
        (TAG_TO_TYPE t).isSome) →
      readU32 b (cursor + 8 * j) = some tbad →
      (readU32 b (cursor + 8 * j + 4)).isSome →
      parseDescriptors b cursor n = .error (.unknownTypeTag tbad) := by
  intro j
  induction j with
  | zero =>
    intro n cursor hjn hknown hread hnext
    obtain ⟨m, rfl⟩ : ∃ m, n = m + 1 := ⟨n - 1, by omega⟩
    simp only [Nat.mul_zero, Nat.add_zero] at hread hnext
    obtain ⟨bl, hbl⟩ := Option.isSome_iff_exists.mp hnext
    simp only [parseDescriptors, hread, hbl, hbad]
  | succ i ih =>
    intro n cursor hjn hknown hread hnext
    obtain ⟨m, rfl⟩ : ∃ m, n = m + 1 := ⟨n - 1, by omega⟩
    obtain ⟨t0, ht0, ht0s⟩ := hknown 0 (by omega)
    simp only [Nat.mul_zero, Nat.add_zero] at ht0
    have hlenb : cursor + 8 * (i + 1) + 4 ≤ b.length := by
      have := (readU32_isSome_iff b (cursor + 8 * (i + 1))).mp
        (by rw [hread]; rfl)
      omega
    have hb4 : (readU32 b (cursor + 4)).isSome :=
      (readU32_isSome_iff b (cursor + 4)).mpr (by omega)
    obtain ⟨bl, hbl⟩ := Option.isSome_iff_exists.mp hb4
    obtain ⟨ty0, hty0⟩ := Option.isSome_iff_exists.mp ht0s
    have htail := ih m (cursor + 8) (by omega)
      (fun k hk => by
        obtain ⟨t, ht, hts⟩ := hknown (k + 1) (by omega)
        refine ⟨t, ?_, hts⟩
        rw [show cursor + 8 + 8 * k = cursor + 8 * (k + 1) by ring]
        exact ht)
      (by rw [show cursor + 8 + 8 * i = cursor + 8 * (i + 1) by ring]
          exact hread)
      (by rw [show cursor + 8 + 8 * i + 4 = cursor + 8 * (i + 1) + 4 by ring]
          exact hnext)
    simp only [parseDescriptors, ht0, hbl, hty0, htail]

/-! # Claim theorems -/

/-- C1: the spec requires every INGEST command to be ACK'd exactly once,
with a SHED eviction immediately ACK'ing the evicted seq via an
INGEST_ERROR whose reason is Shed before removal.  The `ingest` handler
(src/core/data-worker.ts:551-557) instead posts no event at all: on a full
queue under SHED it silently `shift()`s the oldest command, so the evicted
seq 0 leaves the queue without any INGEST_ERROR or INGEST_ACK and its
registered ACK can never resolve. -/
theorem C1_shed_eviction_silent :
    (∀ (s : WorkerState) (buf : Bytes) (q : Nat),
      (DataWorkerCore.ingest s buf q).2 = []) ∧
    shedState.bp.strategy = .SHED ∧
    shedState.queue.length = MAX_QUEUE_DEPTH ∧
    shedState.queue.map QueueItem.seq = List.range 64 ∧
    (DataWorkerCore.ingest shedState [] 64).1.queue.map QueueItem.seq =
      (List.range 64).map (· + 1) ∧
    0 ∉ (DataWorkerCore.ingest shedState [] 64).1.queue.map QueueItem.seq := by
  exact ⟨fun s buf q => rfl, rfl, by decide, by decide, by decide, by decide⟩

/-- C3: a batch whose two parallel list_utf8 columns carry differing
per-row item counts (1 item vs 2 items in the same row) commits cleanly:
both columns grow by the batch's row count regardless of item counts, so
the post-check passes, the worker emits TOTAL_ROWS_UPDATED then INGEST_ACK
with no INGEST_ERROR, and a streaming consumer store stays `streaming`
(never `error`) — contradicting the claim that the post-check fails with an
Integrity violation. -/
theorem C3_mismatched_lists_commit :
    parseBatch c3Buffer = .ok ⟨0, 1,
      [⟨.list_utf8, .listU 1 [0, 1] [0, 1] [97]⟩,
       ⟨.list_utf8, .listU 2 [0, 2] [0, 1, 2] [98, 99]⟩]⟩ ∧
    (DataWorkerCore.ingestBatch c3Store ⟨c3Buffer, 5⟩).2 =
      [.totalRowsUpdated 1, .ingestAck 5] ∧
    (∀ e ∈ (DataWorkerCore.ingestBatch c3Store ⟨c3Buffer, 5⟩).2,
      e.isIngestError = false) ∧
    (DataWorkerCore.ingestBatch c3Store ⟨c3Buffer, 5⟩).1.columns.map
      AnyColumn.rowCount = [1, 1] ∧
    (DataWorkerCore.ingestBatch c3Store ⟨c3Buffer, 5⟩).1.totalRows = 1 ∧
    ((DataWorkerCore.ingestBatch c3Store ⟨c3Buffer, 5⟩).2.foldl
      AtomicStore.dispatch c3ConsumerStore).state.status = .streaming := by
  exact ⟨by decide, by decide, by decide, by decide, by decide, by decide⟩

/-- C7: `ListUtf8Column.copySlice` (src/core/data-worker.ts:256-290) fails
the claimed invariant when the sliced rows contain no items but the store
holds earlier bytes: with `sliceItems = 0` the rebase base is forced to 0,
so the slice's `itemOffsets[0]` is the store-absolute offset 1 instead of
0, and `itemOffsets[sliceItems] = 1` differs from the block's byte length
0.  The bad block is emitted: flushing a window over row 1 (an empty list
after a one-item row) produces a WINDOW_UPDATE whose list column parses
with `itemOffsets = [1]` and empty bytes. -/
theorem C7_list_slice_offsets_bug :
    (c7Column.copySlice 1 1).sliceItems = 0 ∧
    (c7Column.copySlice 1 1).rowOffsets = [0, 0] ∧
    (c7Column.copySlice 1 1).itemOffsets = [1] ∧
    (c7Column.copySlice 1 1).bytes = [] ∧
    (c7Column.copySlice 1 1).itemOffsets.getD 0 0 ≠ 0 ∧
    (c7Column.copySlice 1 1).itemOffsets.getD
      (c7Column.copySlice 1 1).sliceItems 0 ≠
      (c7Column.copySlice 1 1).bytes.length ∧
    (DataWorkerCore.flushWindow c7State).2.map (fun e =>
      match e with
      | .windowUpdate w => parseBatch w.buffer
      | _ => .error .rangeError) =
      [.ok ⟨0, 1, [⟨.list_utf8, .listU 0 [0, 0] [1] []⟩]⟩] := by
  exact ⟨by decide, by decide, by decide, by decide, by decide, by decide,
    by decide⟩

/-- C9 counterexample: dispatching a BACKPRESSURE event whose payload equals
the current backpressure field leaves every field of the state unchanged,
yet `merge` allocates a fresh snapshot — the reference (modelled by the
version counter) still changes, refuting "distinct reference iff some field
differs". -/
theorem C9_dispatch_counterexample :
    (initialAtomicStore.dispatch
      (.backpressure INITIAL_STORE_STATE.backpressure)).state =
      initialAtomicStore.state ∧
    (initialAtomicStore.dispatch
      (.backpressure INITIAL_STORE_STATE.backpressure)).version ≠
      initialAtomicStore.version := by
  exact ⟨by decide, by decide⟩

/-- C9 (amended): `getState()` returns a distinct reference after exactly
the dispatches that apply a merge — every LAYOUT_READY, WINDOW_UPDATE,
BACKPRESSURE and INGEST_ERROR dispatch, and TOTAL_ROWS_UPDATED with a
changed `totalRows`; TOTAL_ROWS_UPDATED with an unchanged count and
INGEST_ACK return the same reference.  A merging dispatch yields a fresh
reference even when every field is unchanged, and any dispatch that changes
some field always yields a distinct reference. -/
theorem C9_dispatch_reference (st : AtomicStore) (ev : WorkerEvent) :
    ((st.dispatch ev).version ≠ st.version ↔ dispatchMerges st ev) ∧
    (st.state ≠ (st.dispatch ev).state → (st.dispatch ev).version ≠ st.version) := by
  cases ev with
  | layoutReady lay =>
    refine ⟨?_, fun _ => ?_⟩ <;>
      simp [AtomicStore.dispatch, AtomicStore.merge, dispatchMerges]
  | windowUpdate w =>
    refine ⟨?_, fun _ => ?_⟩ <;>
      simp [AtomicStore.dispatch, AtomicStore.merge, dispatchMerges]
  | backpressure bp =>
    refine ⟨?_, fun _ => ?_⟩ <;>
      simp [AtomicStore.dispatch, AtomicStore.merge, dispatchMerges]
  | ingestError q msg =>
    refine ⟨?_, fun _ => ?_⟩ <;>
      simp [AtomicStore.dispatch, AtomicStore.merge, dispatchMerges]
  | ingestAck q =>
    refine ⟨?_, fun h => ?_⟩
    · simp [AtomicStore.dispatch, dispatchMerges]
    · exact absurd rfl h
  | totalRowsUpdated n =>
    by_cases h : st.state.totalRows = n
    · refine ⟨?_, fun hne => ?_⟩
      · simp [AtomicStore.dispatch, dispatchMerges, h]
      · rw [AtomicStore.dispatch] at hne
        simp [h] at hne
    · refine ⟨?_, fun _ => ?_⟩ <;>
        simp [AtomicStore.dispatch, AtomicStore.merge, dispatchMerges, h]

/-- C2 counterexample: a well-formed header with one bool column declaring
`byteLen = 5` while only 1 data byte remains (the declared length extends
4 bytes past the 25-byte buffer); `ArrayBuffer.slice` clamps, and the
parser returns a parsed batch instead of failing with a Truncated error. -/
theorem C2_truncation_counterexample :
    (clampBatch 9 4).length = 25 ∧
    16 + 8 * 1 + 5 > (clampBatch 9 4).length ∧
    parseBatch (clampBatch 9 4) = .ok ⟨0, 1, [⟨.bool, .num 1 [9]⟩]⟩ := by
  exact ⟨by decide, by decide, by decide⟩

/-- C2 (amended): the batch parser fails with InvalidMagic when the
leading 32-bit little-endian word differs from 0xAC1DC0DE, and with
UnknownTypeTag on the first readable descriptor tag outside 0..6; but a
declared column byteLen that extends past the end of the buffer is clamped
to the available bytes (`ArrayBuffer.slice` semantics) and the parser can
still return a parsed batch — no Truncated failure exists. -/
theorem C2_parse_failures_amended :
    (∀ b : Bytes, 4 ≤ b.length → leValue (b.take 4) ≠ BATCH_MAGIC →
      parseBatch b = .error (.invalidMagic (leValue (b.take 4)))) ∧
    (∀ (b : Bytes) (cc j tbad : Nat),
      readU32 b 0 = some BATCH_MAGIC → (readU32 b 4).isSome = true →
      (readU32 b 8).isSome = true → readU32 b 12 = some cc → j < cc →
      TAG_TO_TYPE tbad = none →
      (∀ k < j, ∃ t, readU32 b (16 + 8 * k) = some t ∧
        (TAG_TO_TYPE t).isSome = true) →
      readU32 b (16 + 8 * j) = some tbad →
      (readU32 b (16 + 8 * j + 4)).isSome = true →
      parseBatch b = .error (.unknownTypeTag tbad)) ∧
    (∀ dataByte extra : Nat, 1 + extra < 2 ^ 32 →
      parseBatch (clampBatch dataByte extra) =
        .ok ⟨0, 1, [⟨.bool, .num 1 [dataByte]⟩]⟩) := by
  refine ⟨?_, ?_, ?_⟩
  · intro b hlen hne
    have hr : readU32 b 0 = some (leValue (b.take 4)) := by
      rw [readU32, if_pos (by omega), List.drop_zero]
    rw [parseBatch]
    simp only [hr]
    rw [if_pos hne]
  · intro b cc j tbad h0 h4 h8 h12 hj htag hknown hj8 hj84
    obtain ⟨sq, hsq⟩ := Option.isSome_iff_exists.mp h4
    obtain ⟨rc, hrc⟩ := Option.isSome_iff_exists.mp h8
    have hd : parseDescriptors b 16 cc = .error (.unknownTypeTag tbad) :=
      parseDescriptors_unknown b tbad htag j cc 16 hj hknown hj8 hj84
    rw [parseBatch]
    simp only [h0, ne_eq, eq_self_iff_true, not_true_eq_false, if_false,
      hsq, hrc, h12, hd]
  · intro d extra hlt
    have hassoc : clampBatch d extra =
        leN 4 BATCH_MAGIC ++ (leN 4 0 ++ (leN 4 1 ++ (leN 4 1 ++
          (leN 4 3 ++ (leN 4 (1 + extra) ++ [d]))))) := by
      simp [clampBatch, List.append_assoc]
    have hread0 : readU32 (clampBatch d extra) 0 = some BATCH_MAGIC := by
      rw [hassoc]
      have h := readU32_le BATCH_MAGIC (leN 4 0 ++ (leN 4 1 ++ (leN 4 1 ++
        (leN 4 3 ++ (leN 4 (1 + extra) ++ [d])))))
      rw [Nat.mod_eq_of_lt (by norm_num [BATCH_MAGIC])] at h
      exact h
    have hread4 : readU32 (clampBatch d extra) 4 = some 0 := by
      rw [hassoc]
      have h := readU32_at (leN 4 BATCH_MAGIC) 4 0 (leN 4 1 ++ (leN 4 1 ++
        (leN 4 3 ++ (leN 4 (1 + extra) ++ [d])))) (leN_length 4 _)
      rw [Nat.mod_eq_of_lt (by norm_num)] at h
      exact h
    have hread8 : readU32 (clampBatch d extra) 8 = some 1 := by
      have hb : clampBatch d extra = (leN 4 BATCH_MAGIC ++ leN 4 0) ++
          (leN 4 1 ++ (leN 4 1 ++ (leN 4 3 ++ (leN 4 (1 + extra) ++ [d])))) := by
        simp [clampBatch, List.append_assoc]
      rw [hb]
      have h := readU32_at (leN 4 BATCH_MAGIC ++ leN 4 0) 8 1 (leN 4 1 ++
        (leN 4 3 ++ (leN 4 (1 + extra) ++ [d])))
        (by simp [List.length_append, leN_length])
      rw [Nat.mod_eq_of_lt (by norm_num)] at h
      exact h
    have hread12 : readU32 (clampBatch d extra) 12 = some 1 := by
      have hb : clampBatch d extra = (leN 4 BATCH_MAGIC ++ leN 4 0 ++ leN 4 1) ++
          (leN 4 1 ++ (leN 4 3 ++ (leN 4 (1 + extra) ++ [d]))) := by
        simp [clampBatch, List.append_assoc]
      rw [hb]
      have h := readU32_at (leN 4 BATCH_MAGIC ++ leN 4 0 ++ leN 4 1) 12 1
        (leN 4 3 ++ (leN 4 (1 + extra) ++ [d]))
        (by simp [List.length_append, leN_length])
      rw [Nat.mod_eq_of_lt (by norm_num)] at h
      exact h
    have hread16 : readU32 (clampBatch d extra) 16 = some 3 := by
      have hb : clampBatch d extra =
          (leN 4 BATCH_MAGIC ++ leN 4 0 ++ leN 4 1 ++ leN 4 1) ++
          (leN 4 3 ++ (leN 4 (1 + extra) ++ [d])) := by
        simp [clampBatch, List.append_assoc]
      rw [hb]
      have h := readU32_at (leN 4 BATCH_MAGIC ++ leN 4 0 ++ leN 4 1 ++ leN 4 1)
        16 3 (leN 4 (1 + extra) ++ [d])
        (by simp [List.length_append, leN_length])
      rw [Nat.mod_eq_of_lt (by norm_num)] at h
      exact h
    have hread20 : readU32 (clampBatch d extra) 20 = some (1 + extra) := by
      have hb : clampBatch d extra =
          (leN 4 BATCH_MAGIC ++ leN 4 0 ++ leN 4 1 ++ leN 4 1 ++ leN 4 3) ++
          (leN 4 (1 + extra) ++ [d]) := by
        simp [clampBatch, List.append_assoc]
      rw [hb]
      have h := readU32_at
        (leN 4 BATCH_MAGIC ++ leN 4 0 ++ leN 4 1 ++ leN 4 1 ++ leN 4 3)
        20 (1 + extra) [d] (by simp [List.length_append, leN_length])
      rw [Nat.mod_eq_of_lt hlt] at h
      exact h
    have hdescs : parseDescriptors (clampBatch d extra) 16 1 =
        .ok [(.bool, 1 + extra)] := by
      rw [parseDescriptors, hread16]
      rw [show (16 : Nat) + 4 = 20 from rfl, hread20]
      rfl
    have hslice : bufSlice (clampBatch d extra) 24 (24 + (1 + extra)) = [d] := by
      have hb : clampBatch d extra =
          (leN 4 BATCH_MAGIC ++ leN 4 0 ++ leN 4 1 ++ leN 4 1 ++ leN 4 3 ++
            leN 4 (1 + extra)) ++ [d] := by
        simp [clampBatch, List.append_assoc]
      have hp : (leN 4 BATCH_MAGIC ++ leN 4 0 ++ leN 4 1 ++ leN 4 1 ++ leN 4 3 ++
          leN 4 (1 + extra)).length = 24 := by
        simp [List.length_append, leN_length]
      rw [bufSlice, hb, drop_append_eq _ _ 24 hp]
      rw [Nat.add_sub_cancel_left]
      exact List.take_of_length_le (by simp)
    have hcells : readCells 1 [d] = [d] := by
      simp [readCells, readCellsAux, leValue]
    have hcol : parseCol .bool 1 [d] = .ok (.num 1 [d]) := by
      rw [show parseCol .bool 1 [d] =
          (if ([d] : Bytes).length % elemSizeOf .bool ≠ 0 then .error .rangeError
           else .ok (.num (elemSizeOf .bool) (readCells (elemSizeOf .bool) [d])))
        from rfl]
      simp [elemSizeOf, Nat.mod_one, hcells]
    have hcols2 : parseCols (clampBatch d extra) 1 24 [(.bool, 1 + extra)] =
        .ok [⟨.bool, .num 1 [d]⟩] := by
      rw [parseCols, hslice, hcol]
      rfl
    rw [parseBatch]
    simp only [hread0, ne_eq, eq_self_iff_true, not_true_eq_false, if_false,
      hread4, hread8, hread12, hdescs]
    rw [show (16 : Nat) + 8 * 1 = 24 from rfl]
    simp only [hcols2]

/-- C2 amended witness: a zero-magic buffer, a tag-7 descriptor, and an
over-long byteLen, each exercised at concrete inputs. -/
theorem C2_parse_failures_witness :
    parseBatch (List.replicate 4 0) = .error (.invalidMagic 0) ∧
    parseBatch badTagBatch = .error (.unknownTypeTag 7) ∧
    parseBatch (clampBatch 9 4) = .ok ⟨0, 1, [⟨.bool, .num 1 [9]⟩]⟩ := by
  refine ⟨?_, ?_, C2_parse_failures_amended.2.2 9 4 (by decide)⟩
  · have h := C2_parse_failures_amended.1 (List.replicate 4 0) (by decide)
      (by decide)
    rw [h]
    decide
  · exact C2_parse_failures_amended.2.1 badTagBatch 1 0 7 (by decide) (by decide)
      (by decide) (by decide) (by decide) (by decide)
      (fun k hk => absurd hk (by omega)) (by decide) (by decide)

/-- C10: when an otherwise valid batch declares more columns than the
store's schema, both the pre-check and the append loop range only over the
first `storeCols` columns: the surplus batch columns are silently
discarded (committing depends only on the prefix), the batch's rows are
committed, `totalRows` grows by the batch's row count, and the worker
emits TOTAL_ROWS_UPDATED then INGEST_ACK with no INGEST_ERROR. -/
theorem C10_surplus_columns (s : WorkerState) (item : QueueItem)
    (batch : ParsedBatch)
    (hparse : parseBatch item.buffer = .ok batch)
    (hmore : s.columns.length < batch.columns.length)
    (hschema : s.schema.length = s.columns.length)
    (htypes : ∀ i < s.columns.length,
      (batch.columns.getD i dummyParsedCol).type =
        (s.schema.getD i dummyResolvedCol).type)
    (hcompat : ∀ p ∈ s.columns.zip batch.columns,
      appendCompatible p.1 p.2 batch.rowCount = true ∧
        p.1.rowCount = s.totalRows) :
    (DataWorkerCore.ingestBatch s item).2 =
      [.totalRowsUpdated (s.totalRows + batch.rowCount),
       .ingestAck item.seq] ∧
    (DataWorkerCore.ingestBatch s item).1.totalRows =
      s.totalRows + batch.rowCount ∧
    (DataWorkerCore.ingestBatch s item).1.columns =
      DataWorkerCore.appendAll s.columns
        (batch.columns.take s.columns.length) batch.rowCount ∧
    (DataWorkerCore.ingestBatch s item).1.columns.length = s.columns.length := by
  have hmm : DataWorkerCore.firstMismatch batch.columns s = none := by
    unfold DataWorkerCore.firstMismatch
    rw [List.find?_eq_none]
    intro i hi
    have hilt : i < s.columns.length := by
      simp only [List.mem_range] at hi
      omega
    simp only [decide_eq_true_eq]
    exact fun hne => hne (htypes i hilt)
  have hpost : (DataWorkerCore.appendAll s.columns batch.columns
      batch.rowCount).findIdx?
      (fun c => c.rowCount ≠ s.totalRows + batch.rowCount) = none := by
    apply findIdx?_eq_none_of
    intro x hx
    have h := appendAll_rowCount s.columns batch.columns batch.rowCount
      s.totalRows (le_of_lt hmore) hcompat x hx
    simp [h]
  unfold DataWorkerCore.ingestBatch
  simp only [hparse, hmm, hpost]
  refine ⟨by simp [DataWorkerCore.rebuildLayout],
    by simp [DataWorkerCore.rebuildLayout],
    by simp only [DataWorkerCore.rebuildLayout]
       exact appendAll_take _ _ _,
    by simp only [DataWorkerCore.rebuildLayout]
       rw [appendAll_length]⟩

/-- C10 witness: a one-bool-column store ingesting a two-bool-column batch
of one row. -/
theorem C10_surplus_columns_witness :
    parseBatch c10Buffer = .ok c10Batch ∧
    c10Store.columns.length < c10Batch.columns.length ∧
    (DataWorkerCore.ingestBatch c10Store ⟨c10Buffer, 3⟩).2 =
      [.totalRowsUpdated (c10Store.totalRows + c10Batch.rowCount),
       .ingestAck 3] ∧
    (DataWorkerCore.ingestBatch c10Store ⟨c10Buffer, 3⟩).1.totalRows =
      c10Store.totalRows + c10Batch.rowCount :=
  ⟨by decide, by decide,
    (C10_surplus_columns c10Store ⟨c10Buffer, 3⟩ c10Batch (by decide)
      (by decide) (by decide) (by decide) (by decide)).1,
    (C10_surplus_columns c10Store ⟨c10Buffer, 3⟩ c10Batch (by decide)
      (by decide) (by decide) (by decide) (by decide)).2.1⟩

/-- C4: round-trip identity.  For every schema over the seven column types
and every row sequence whose values the model's coercions cover
(`Typable`), parsing `encodeRecordBatch` succeeds with the given `seq`,
`rowCount = |R|`, `colCount = |S|`, and per column exactly the coerced
inputs (`coercedPayload`); and the coercion rules are as claimed:
missing/null numeric inputs become 0, a bool cell is 1 iff the input is
truthy, missing utf8 becomes the empty string, non-array list_utf8 input
becomes the empty array, and fractional i32/u32 input is truncated toward
zero (read back signed for i32, unsigned for u32). -/
theorem C4_roundtrip (schema : List ColumnSchema) (rows : List RowRecord)
    (seq : Nat)
    (hseq : seq < 2 ^ 32) (hrows : rows.length < 2 ^ 32)
    (hcols : schema.length < 2 ^ 32)
    (htyp : ∀ col ∈ schema, ∀ r ∈ rows, Typable col.type (r col.name) = true)
    (hsize : ∀ col ∈ schema,
      ((encCol col.type (rows.map fun r => r col.name)).map List.length).sum
        < 2 ^ 32) :
    (parseBatch (encodeRecordBatch schema rows seq) =
      .ok ⟨seq, rows.length,
        schema.map fun col =>
          ⟨col.type, coercedPayload col.type (rows.map fun r => r col.name)⟩⟩) ∧
    (coerceF64 .undef = 0 ∧ coerceF64 .jnull = 0 ∧
      coerce32 .undef = 0 ∧ coerce32 .jnull = 0) ∧
    (∀ v, truthy v = true → (if truthy v then (1 : Nat) else 0) = 1) ∧
    (∀ v, truthy v = false → (if truthy v then (1 : Nat) else 0) = 0) ∧
    (coerceUtf8 .undef = [] ∧ coerceUtf8 .jnull = []) ∧
    (∀ v, (∀ l, v ≠ JValue.strList l) → coerceList v = []) ∧
    (∀ q : ℚ, -(2 ^ 31 : ℤ) ≤ jsTrunc q → jsTrunc q < 2 ^ 31 →
      asInt32 (coerce32 (.numQ q)) = jsTrunc q) ∧
    (∀ q : ℚ, 0 ≤ jsTrunc q → jsTrunc q < 2 ^ 32 →
      (coerce32 (.numQ q) : ℤ) = jsTrunc q) := by
  refine ⟨?_, ?_, ?_, ?_, ⟨rfl, rfl⟩, ?_, ?_, ?_⟩
  · rw [encodeRecordBatch]
    have hforall : List.Forall₂
        (fun (c : ColumnDataType × List Bytes) (p : ColPayload) =>
          parseCol c.1 rows.length c.2.flatten = .ok p)
        (schema.map fun col =>
          (col.type, encCol col.type (rows.map fun r => r col.name)))
        (schema.map fun col =>
          coercedPayload col.type (rows.map fun r => r col.name)) := by
      apply forall₂_map_map
      intro col hcol
      refine parseCol_encCol col.type _ rows.length (by simp) ?_ (hsize col hcol)
      intro v hv
      obtain ⟨r, hr, rfl⟩ := List.mem_map.mp hv
      exact htyp col hcol r hr
    have hlen2 : ∀ c ∈ (schema.map fun col =>
        (col.type, encCol col.type (rows.map fun r => r col.name))),
        c.2.flatten.length < 2 ^ 32 := by
      intro c hc
      obtain ⟨col, hcol, rfl⟩ := List.mem_map.mp hc
      simpa [List.length_flatten] using hsize col hcol
    have h := parseBatch_pack seq rows.length _ _ hseq hrows
      (by simpa using hcols) hlen2 hforall
    rw [h, zipWith_map_same]
  · refine ⟨rfl, rfl, ?_, ?_⟩ <;> norm_num [coerce32, numOf, jsTrunc]
  · intro v h
    simp [h]
  · intro v h
    simp [h]
  · intro v hv
    cases v <;> first | rfl | exact absurd rfl (hv _)
  · intro q h1 h2
    rw [show ((2 : ℤ) ^ 31) = 2147483648 from by norm_num] at h1 h2
    simp only [asInt32, coerce32, numOf]
    rw [show ((2 : ℤ) ^ 32) = 4294967296 from by norm_num,
      show ((2 : Nat) ^ 31) = 2147483648 from by norm_num]
    split_ifs with hlt
    · omega
    · omega
  · intro q h1 h2
    rw [show ((2 : ℤ) ^ 32) = 4294967296 from by norm_num] at h2
    simp only [coerce32, numOf]
    rw [show ((2 : ℤ) ^ 32) = 4294967296 from by norm_num]
    omega

/-- C4 witness: a two-row batch over all seven column types, with
fractional i32/u32 inputs, a truthy string fed to bool, and a second row
of nulls and a non-array list input. -/
theorem C4_roundtrip_witness :
    parseBatch (encodeRecordBatch c4Schema c4Rows 5) =
      .ok ⟨5, c4Rows.length,
        c4Schema.map fun col =>
          ⟨col.type, coercedPayload col.type (c4Rows.map fun r => r col.name)⟩⟩ :=
  (C4_roundtrip c4Schema c4Rows 5 (by decide) (by decide) (by decide)
    (by
      intro col hcol r hr
      fin_cases hcol <;> fin_cases hr <;>
        first
          | decide
          | (simp [Typable, jsTrunc]
             try norm_num))
    (by
      intro col hcol
      fin_cases hcol <;> decide)).1

/-- C5: the backpressure controller keeps the last 8 render-latency
samples; before the fourth held sample `record` never reports a change and
the strategy is untouched; once at least 4 samples are held the stored
strategy equals the threshold function of the arithmetic mean of the held
samples (mean > 28 → SHED, 14 < mean ≤ 28 → BUFFER, mean ≤ 14 → NOMINAL),
and `frameAck` posts a BACKPRESSURE event iff the strategy changed on this
sample — never on a same-strategy sample. -/
theorem C5_backpressure (c : BackpressureController) (ms : ℚ)
    (hcap : c.history.capacity = 8) :
    (c.record ms).1.history.data = (ms :: c.history.data).take 8 ∧
    ((c.record ms).1.history.data.length < 4 →
      (c.record ms).2 = none ∧ (c.record ms).1.strategy = c.strategy) ∧
    (4 ≤ (c.record ms).1.history.data.length →
      ((c.record ms).1.history.mean > 28 → (c.record ms).1.strategy = .SHED) ∧
      (14 < (c.record ms).1.history.mean → (c.record ms).1.history.mean ≤ 28 →
        (c.record ms).1.strategy = .BUFFER) ∧
      ((c.record ms).1.history.mean ≤ 14 →
        (c.record ms).1.strategy = .NOMINAL) ∧
      ((c.record ms).2 = some (c.record ms).1.strategy ↔
        (c.record ms).1.strategy ≠ c.strategy) ∧
      ((c.record ms).2 = none ↔ (c.record ms).1.strategy = c.strategy)) ∧
    (∀ s : WorkerState, s.bp = c →
      ((DataWorkerCore.frameAck s ms).2 ≠ [] ↔ (c.record ms).2 ≠ none)) := by
  have hpush : (c.history.push ms).data = (ms :: c.history.data).take 8 := by
    simp [RingBuffer.push, hcap]
  by_cases hlt : (c.history.push ms).data.length < 4
  · have hrec : c.record ms = ({ c with history := c.history.push ms }, none) := by
      simp only [BackpressureController.record]
      rw [if_pos hlt]
    rw [hrec]
    refine ⟨hpush, fun _ => ⟨rfl, rfl⟩, fun h4 => absurd h4 (by simpa using hlt),
      fun s hbp => ?_⟩
    simp [DataWorkerCore.frameAck, hbp, hrec]
  · set nxt := (if (c.history.push ms).mean > 28 then BackpressureStrategy.SHED
      else if (c.history.push ms).mean > 14 then BackpressureStrategy.BUFFER
      else BackpressureStrategy.NOMINAL) with hnxt
    have hmean : ({ c with history := c.history.push ms } :
        BackpressureController).history.mean = (c.history.push ms).mean := rfl
    by_cases heq : nxt = c.strategy
    · have hrec : c.record ms = ({ c with history := c.history.push ms }, none) := by
        simp only [BackpressureController.record]
        rw [if_neg hlt, ← hnxt, if_pos heq]
      rw [hrec]
      refine ⟨hpush, fun h4 => absurd h4 (by simpa using hlt), fun _ =>
        ⟨?_, ?_, ?_, ?_, ?_⟩, fun s hbp => ?_⟩
      · intro havg
        rw [hnxt, if_pos havg] at heq
        exact heq.symm
      · intro h14 h28
        rw [hnxt, if_neg (by simpa using h28), if_pos h14] at heq
        exact heq.symm
      · intro h14
        rw [hnxt, if_neg (by simp; linarith), if_neg (by simpa using h14)] at heq
        exact heq.symm
      · simp
      · simp
      · simp [DataWorkerCore.frameAck, hbp, hrec]
    · have hrec : c.record ms =
          ({ history := c.history.push ms, strategy := nxt }, some nxt) := by
        simp only [BackpressureController.record]
        rw [if_neg hlt, ← hnxt, if_neg heq]
      rw [hrec]
      refine ⟨hpush, fun h4 => absurd h4 (by simpa using hlt), fun _ =>
        ⟨?_, ?_, ?_, by simpa using heq, by simpa using heq⟩, fun s hbp => ?_⟩
      · intro havg
        rw [hnxt, if_pos havg]
      · intro h14 h28
        rw [hnxt, if_neg (by simpa using h28), if_pos h14]
      · intro h14
        rw [hnxt, if_neg (by simp; linarith), if_neg (by simpa using h14)]
      · simp [DataWorkerCore.frameAck, hbp, hrec]

/-- C5 witness: a controller holding three 30 ms samples fed a fourth. -/
theorem C5_backpressure_witness :
    c5Controller.history.capacity = 8 ∧
    (c5Controller.record 30).1.history.data =
      (30 :: c5Controller.history.data).take 8 :=
  ⟨rfl, (C5_backpressure c5Controller 30 rfl).1⟩

/-- C6 counterexample: with a consumer-measured pitch of 50 px and
`layout.rowHeight = 36`, scrollTop 170 makes the scroll handler send
`startRow = floor(170 / 36) = 4`, not the spec's
`floor(170 / effectiveRowHeight) = floor(170 / 50) = 3`: `handleScroll`
never consults the pitch. -/
theorem C6_scroll_counterexample :
    handleScroll true (some c6Layout) 170 3 = some ⟨4, 16⟩ ∧
    ⌊(170 : ℚ) / specEffectiveRowHeight 50 c6Layout.rowHeight⌋ = 3 ∧
    (4 : ℤ) ≠ 3 := by
  have hrh : c6Layout.rowHeight ≠ 0 := by decide
  have h1 : handleScroll true (some c6Layout) 170 3 =
      some ⟨⌊(170 : ℚ) / c6Layout.rowHeight⌋,
        (c6Layout.viewportRows : ℤ) + 3 * 2⟩ := by
    simp [handleScroll, hrh]
  have hfloor : ⌊(170 : ℚ) / c6Layout.rowHeight⌋ = 4 := by
    rw [show c6Layout.rowHeight = 36 from rfl]
    norm_num
  refine ⟨?_, ?_, by decide⟩
  · rw [h1, hfloor]
    decide
  · rw [show specEffectiveRowHeight 50 c6Layout.rowHeight = 50 from rfl]
    norm_num

/-- C6 (amended): for every scroll update that sends a command (container
attached, layout present, `layout.rowHeight ≠ 0`), the SET_WINDOW carries
`startRow = floor(scrollTop / layout.rowHeight)` — the consumer-measured
pitch is not consulted — and
`rowCount = layout.viewportRows + 2 × overscanRows` with `overscanRows`
defaulting to 3. -/
theorem C6_scroll_amended (el : Bool) (lay : ViewportLayout) (scrollTop : ℚ)
    (overscanRows : ℤ) (hel : el = true) (hrh : lay.rowHeight ≠ 0) :
    handleScroll el (some lay) scrollTop overscanRows =
      some ⟨⌊scrollTop / lay.rowHeight⌋,
        (lay.viewportRows : ℤ) + overscanRows * 2⟩ := by
  subst hel
  simp [handleScroll, hrh]

/-- C6 amended witness at scrollTop 170, rowHeight 36, overscan 3. -/
theorem C6_scroll_amended_witness :
    c6Layout.rowHeight ≠ 0 ∧
    handleScroll true (some c6Layout) 170 3 =
      some ⟨⌊(170 : ℚ) / c6Layout.rowHeight⌋,
        (c6Layout.viewportRows : ℤ) + 3 * 2⟩ :=
  ⟨by decide, C6_scroll_amended true c6Layout 170 3 rfl (by decide)⟩

/-- C8: every WINDOW_UPDATE emitted by `flushWindow` from a well-typed
store carries `startRow` clamped to `[0, totalRows - 1]`, `rowCount`
clamped to the available suffix `totalRows - startRow`, the store's
sequence counter, and a buffer the batch parser accepts, whose header
matches the window (`rowCount`, `seq`) and whose column count equals the
store's — for every requested `(windowStart, windowCount)`, including
requests starting at or beyond `totalRows`. -/
theorem C8_window_wellformed (s : WorkerState) (w : DataWindow)
    (hready : FlushReady s)
    (hw : WorkerEvent.windowUpdate w ∈ (DataWorkerCore.flushWindow s).2) :
    w.seq = s.seqCounter ∧
    w.startRow = min s.windowStart (s.totalRows - 1) ∧
    w.rowCount = min s.windowCount (s.totalRows - w.startRow) ∧
    ∃ pb, parseBatch w.buffer = .ok pb ∧
      pb.seq = s.seqCounter ∧ pb.rowCount = w.rowCount ∧
      pb.columns.length = s.columns.length := by
  obtain ⟨hcs, hcb, htb, hsq, hcols⟩ := hready
  have h20 : (2 : Nat) ^ 20 = 1048576 := by norm_num
  have h32 : (2 : Nat) ^ 32 = 4294967296 := by norm_num
  cases hlay : s.layout with
  | none =>
    simp only [DataWorkerCore.flushWindow, hlay] at hw
    exact absurd hw (List.not_mem_nil _)
  | some lay =>
    simp only [DataWorkerCore.flushWindow, hlay] at hw
    by_cases h0 : s.totalRows = 0 ∨ s.windowCount = 0
    · rw [if_pos h0] at hw
      exact absurd hw (List.not_mem_nil _)
    · rw [if_neg h0] at hw
      push_neg at h0
      obtain ⟨htr0, hwc0⟩ := h0
      by_cases hc0 : min s.windowCount
          (s.totalRows - min s.windowStart (s.totalRows - 1)) = 0
      · rw [if_pos hc0] at hw
        exact absurd hw (List.not_mem_nil _)
      · rw [if_neg hc0] at hw
        simp only [List.mem_singleton, WorkerEvent.windowUpdate.injEq] at hw
        subst hw
        refine ⟨rfl, rfl, rfl, ?_⟩
        set st := min s.windowStart (s.totalRows - 1) with hst
        set cn := min s.windowCount (s.totalRows - st) with hcn
        have hsum : st + cn ≤ s.totalRows := by omega
        have hcnlt : cn < 2 ^ 20 := by
          rw [h20]
          rw [h20] at htb
          omega
        have hpair : ∀ q ∈ s.columns.zip s.schema,
            (∃ pay, parseCol q.2.type cn (sliceBufs q.1 st cn).flatten = .ok pay) ∧
            (sliceBufs q.1 st cn).flatten.length < 2 ^ 32 := by
          intro q hq
          obtain ⟨hm, hrc, hsb⟩ := hcols q hq
          exact sliceBufs_parse q.1 q.2.type st cn s.totalRows hm hrc hsum hcnlt hsb
        obtain ⟨ps, hps⟩ := forall₂_exists (s.columns.zip s.schema)
          (fun q pay => parseCol q.2.type cn (sliceBufs q.1 st cn).flatten = .ok pay)
          (fun q hq => (hpair q hq).1)
        have hbuf : packWindowBuffer s.columns (s.schema.map (fun c => c.type))
            st cn s.seqCounter =
            packBuffers s.seqCounter cn
              ((s.columns.zip s.schema).map
                (fun q => (q.2.type, sliceBufs q.1 st cn))) := by
          rw [packWindowBuffer, List.zip_map_right, List.map_map]
          rfl
        have hps2 : List.Forall₂
            (fun (c : ColumnDataType × List Bytes) p =>
              parseCol c.1 cn c.2.flatten = .ok p)
            ((s.columns.zip s.schema).map
              (fun q => (q.2.type, sliceBufs q.1 st cn))) ps := by
          rw [List.forall₂_map_left_iff]
          exact hps
        have hlenmap : ∀ c ∈ (s.columns.zip s.schema).map
            (fun q => (q.2.type, sliceBufs q.1 st cn)),
            c.2.flatten.length < 2 ^ 32 := by
          intro c hc
          obtain ⟨q, hq, rfl⟩ := List.mem_map.mp hc
          exact (hpair q hq).2
        have hn : ((s.columns.zip s.schema).map
            (fun q => (q.2.type, sliceBufs q.1 st cn))).length < 2 ^ 32 := by
          rw [List.length_map, List.length_zip, h32]
          rw [h20] at hcb
          omega
        have hcn32 : cn < 2 ^ 32 := by
          rw [h32]
          rw [h20] at hcnlt
          omega
        have hpk := parseBatch_pack s.seqCounter cn _ ps hsq hcn32 hn hlenmap hps2
        refine ⟨⟨s.seqCounter, cn,
          List.zipWith (fun c p => ParsedColData.mk c.1 p)
            ((s.columns.zip s.schema).map
              (fun q => (q.2.type, sliceBufs q.1 st cn))) ps⟩, ?_, rfl, rfl, ?_⟩
        · show parseBatch (packWindowBuffer s.columns
            (s.schema.map (fun c => c.type)) st cn s.seqCounter) = _
          rw [hbuf]
          exact hpk
        · show (List.zipWith _ _ ps).length = _
          have hpslen := hps.length_eq
          rw [List.length_zipWith, List.length_map, ← hpslen, List.length_zip]
          omega

/-- C8 witness: a two-row bool store with a window requested at
`startRow = 5`, beyond `totalRows = 2`: the emitted window is clamped to
start 1, count 1, and its buffer parses. -/
theorem C8_window_wellformed_witness :
    FlushReady c8State ∧
    WorkerEvent.windowUpdate c8Window ∈ (DataWorkerCore.flushWindow c8State).2 ∧
    (c8Window.seq = c8State.seqCounter ∧
     c8Window.startRow = min c8State.windowStart (c8State.totalRows - 1) ∧
     c8Window.rowCount =
       min c8State.windowCount (c8State.totalRows - c8Window.startRow) ∧
     ∃ pb, parseBatch c8Window.buffer = .ok pb ∧
       pb.seq = c8State.seqCounter ∧ pb.rowCount = c8Window.rowCount ∧
       pb.columns.length = c8State.columns.length) :=
  ⟨by unfold FlushReady; decide, by decide,
    C8_window_wellformed c8State c8Window (by unfold FlushReady; decide)
      (by decide)⟩

end Concertina
